import Mathlib

/-!
# GeeCache: the LRU eviction engine, the consistent-hash ring, the cache facade and the group

A shallow embedding of `geecache/lru/lru.go`, `geecache/consistenthash/consistenthash.go`,
`geecache/byteview.go`, `geecache/cache.go` and `geecache/geecache.go`, with the properties
of the specification proved over it.

Modelling decisions.

* A Go `string` is a Lean `String`; `len(key)` is `String.utf8ByteSize`.
* Machine integers are `Int`. The byte counter `nbytes` is an `int64`: every
  conversion to `int64` and every `int64` sum or difference is reduced into the
  `int64` range by `int64`, as the hardware does (wrap-around). `int` is taken to
  be 64 bits wide, so that `int(uint32)` keeps the value. A `uint32` hash value
  is reduced `% 2^32`.
* `container/list` is a Lean list, front first. A `*list.Element` is the
  address `addr` of the element; `PushFront` takes the next unused address.
* `map[string]*list.Element` is a function `String → Option Nat`.
* The `onEvicted` callback is arbitrary code; the model records whether it is
  set and the sequence of calls made to it, each with the cache state the
  callback can observe when it is called.
* The eviction loop of `Add` may spin forever (`RemoveOldest` on an empty list
  changes nothing); `Add` therefore returns an `Option`, `none` standing for a
  loop that never exits.
* Calls are taken one at a time: the mutex of the facade and the lock of the
  group registry are not modelled, nor is the registry itself.
* A getter is arbitrary code of the caller; it is a function of the key and of
  a state of its own. The group records the calls it makes to the getter and to
  the facade. Logging (`log.Printf`, `DPrintf`) is left out.
-/

namespace lru

/-- The value of an integer in the type `int64`: the conversion `int64(x)`, and the result of
an `int64` addition or subtraction whose exact result is `x`. It is `x` reduced modulo `2^64`
into the range from `-2^63` to `2^63 - 1`. -/
def int64 (x : Int) : Int :=
  (x + 9223372036854775808) % 18446744073709551616 - 9223372036854775808

/-- Interface `Value`: a value reports how many bytes it takes through `Len() int`. The
result is an `int`, so it is not below `-2^63`; nothing more of the range of `int` is used. -/
class Value (V : Type) where
  Len : V → Int
  Len_min : ∀ v, -9223372036854775808 ≤ Len v

/-- Struct `entry`: the data carried by a list element. -/
structure entry (V : Type) where
  key : String
  value : V

/-- A `list.Element` of `container/list`: its address and its `Value`, an `*entry`. -/
structure Element (V : Type) where
  addr : Nat
  Value : entry V

/-- One call `onEvicted(key, value)` together with what the callback can observe of the
cache at that moment: the list, whether `key` is still indexed, and the byte counter. -/
structure Eviction (V : Type) where
  key : String
  value : V
  ll : List (Element V)
  indexed : Bool
  nbytes : Int

/-- Struct `Cache` of `lru.go`. The map field `Cache` is called `index` here (a field cannot
bear the name of its structure). `fresh` is the next unused element address and `calls` the
calls made to `onEvicted` so far, oldest first. -/
structure Cache (V : Type) where
  maxBytes : Int
  nbytes : Int
  ll : List (Element V)
  index : String → Option Nat
  onEvicted : Bool
  fresh : Nat
  calls : List (Eviction V)

/-- Go `len(s)` of a string, as an `int64`. -/
def len (s : String) : Int := (s.utf8ByteSize : Int)

/-- Method `(*list.List).MoveToFront`: an element that is not in the list leaves it unchanged. -/
def MoveToFront {V : Type} (l : List (Element V)) (ele : Nat) : List (Element V) :=
  match l.find? (fun e => e.addr == ele) with
  | some e => e :: l.eraseP (fun e => e.addr == ele)
  | none => l

/-- The assignment `en.value = value` through the pointer `ele`. -/
def setValue {V : Type} (l : List (Element V)) (ele : Nat) (value : V) : List (Element V) :=
  l.map (fun e => if e.addr == ele then { e with Value := { e.Value with value := value } } else e)

/-- Constructor `NewCache(maxBytes, onEvicted)`. -/
def NewCache {V : Type} (maxBytes : Int) (onEvicted : Bool) : Cache V :=
  { maxBytes := maxBytes, nbytes := 0, ll := [], index := fun _ => none,
    onEvicted := onEvicted, fresh := 0, calls := [] }

/-- Method `Cache.Get`: `some v` is `(v, true)`, `none` is `(nil, false)`. The second
component is the cache after the call. An indexed address that is not in the list
(no state built from `NewCache` has one) is treated as a miss. -/
def Cache.Get {V : Type} (c : Cache V) (key : String) : Option V × Cache V :=
  match c.index key with
  | some ele =>
    match c.ll.find? (fun e => e.addr == ele) with
    | some en => (some en.Value.value, { c with ll := MoveToFront c.ll ele })
    | none => (none, c)
  | none => (none, c)

/-- Method `Cache.RemoveOldest`. -/
def Cache.RemoveOldest {V : Type} [Value V] (c : Cache V) : Cache V :=
  match c.ll.getLast? with
  | none => c
  | some ele =>
    let en := ele.Value
    let ll := c.ll.dropLast
    let index := fun k => if k = en.key then none else c.index k
    let nbytes := int64 (c.nbytes - int64 (int64 (len en.key) + int64 (Value.Len en.value)))
    { c with
      ll := ll, index := index, nbytes := nbytes,
      calls := if c.onEvicted then
          c.calls ++ [{ key := en.key, value := en.value, ll := ll,
                        indexed := (index en.key).isSome, nbytes := nbytes }]
        else c.calls }

/-- The first part of `Cache.Add`, up to the eviction loop: update the entry of a key
that is indexed, or push a new entry to the front. As in `Cache.Get`, an indexed
address that is not in the list is not followed. -/
def Cache.addEntry {V : Type} [Value V] (c : Cache V) (key : String) (value : V) : Cache V :=
  match c.index key with
  | some ele =>
    match c.ll.find? (fun e => e.addr == ele) with
    | some en =>
      { c with
        ll := setValue (MoveToFront c.ll ele) ele value,
        nbytes := int64 (c.nbytes +
          int64 (int64 (Value.Len value) - int64 (Value.Len en.Value.value))) }
    | none => c
  | none =>
    { c with
      ll := { addr := c.fresh, Value := { key := key, value := value } } :: c.ll,
      index := fun k => if k = key then some c.fresh else c.index k,
      nbytes := int64 (c.nbytes + int64 (int64 (len key) + int64 (Value.Len value))),
      fresh := c.fresh + 1 }

/-- The loop `for c.maxBytes != 0 && c.maxBytes < c.nbytes { c.RemoveOldest() }`, run for at
most `n + 1` tests of the guard. `Cache.Add` starts it with `n` the length of the list: each
round on a non-empty list removes one element, so when `n` reaches `0` the list is empty,
`RemoveOldest` changes nothing, and a guard that is still true stays true for ever: `none`. -/
def Cache.evictLoop {V : Type} [Value V] : Nat → Cache V → Option (Cache V)
  | 0, c => if c.maxBytes ≠ 0 ∧ c.maxBytes < c.nbytes then none else some c
  | n + 1, c =>
    if c.maxBytes ≠ 0 ∧ c.maxBytes < c.nbytes then evictLoop n c.RemoveOldest else some c

/-- The number of calls of `RemoveOldest` made by the loop of `Add`, counted along the
recursion of `evictLoop`. -/
def Cache.evictRounds {V : Type} [Value V] : Nat → Cache V → Nat
  | 0, _ => 0
  | n + 1, c =>
    if c.maxBytes ≠ 0 ∧ c.maxBytes < c.nbytes then evictRounds n c.RemoveOldest + 1 else 0

/-- Method `Cache.Add`. -/
def Cache.Add {V : Type} [Value V] (c : Cache V) (key : String) (value : V) : Option (Cache V) :=
  let c1 := c.addEntry key value
  Cache.evictLoop c1.ll.length c1

/-- Method `Cache.Len`. -/
def Cache.Len {V : Type} (c : Cache V) : Int := (c.ll.length : Int)

/-- A string used as a cache value, as in the scenarios of the specification: its `Len`
is its length in bytes. -/
instance : Value String where
  Len := fun s => len s
  Len_min := fun s => le_trans (by decide) (Int.ofNat_nonneg s.utf8ByteSize)

/-- A value whose `Len` method returns its field `size`, whatever its contents. -/
structure Sized where
  tag : Nat
  size : Nat
deriving DecidableEq

instance : Value Sized where
  Len := fun x => (x.size : Int)
  Len_min := fun x => le_trans (by decide) (Int.ofNat_nonneg x.size)

/-- A value that reports the largest `int`, `2^63 - 1`, as its length. -/
def hugeValue : Sized := { tag := 0, size := 9223372036854775807 }

/-! ### The entries of a cache, as the specification speaks of them -/

/-- The live entries, most recently used first. -/
def Cache.entries {V : Type} (c : Cache V) : List (String × V) :=
  c.ll.map (fun e => (e.Value.key, e.Value.value))

/-- The keys of the live entries, most recently used first. -/
def Cache.keys {V : Type} (c : Cache V) : List String :=
  c.ll.map (fun e => e.Value.key)

/-- The footprint `len(key) + value.Len()` of one entry. -/
def footprint {V : Type} [Value V] (p : String × V) : Int := len p.1 + Value.Len p.2

/-- The sum of the footprints of a list of entries. -/
def total {V : Type} [Value V] (l : List (String × V)) : Int := (l.map footprint).sum

/-- Run a sequence of `Add` calls; `none` when one of them never returns. -/
def addAll {V : Type} [Value V] : Cache V → List (String × V) → Option (Cache V)
  | c, [] => some c
  | c, (k, v) :: rest =>
    match c.Add k v with
    | some c1 => addAll c1 rest
    | none => none

/-- The list of entries after `Add(k, v)` has updated or inserted the entry of `k` and moved
it to the front, in terms of the entries before. -/
def upsert {V : Type} (l : List (String × V)) (p : String × V) : List (String × V) :=
  p :: l.filter (fun q => q.1 != p.1)

/-- The value of the last `Add` of key `k` in a sequence of `Add` calls, if there is one. -/
def latest {V : Type} : List (String × V) → String → Option V
  | [], _ => none
  | (k1, v) :: rest, k =>
    match latest rest k with
    | some w => some w
    | none => if k1 = k then some v else none

/-- The cache of the scenario of the specification, `maxBytes = 10` after `Add("k1","v1")`,
`Add("k2","v2")` and `Add("k3","v3")`, the last of which removes the oldest entry once. -/
def scenario : Cache String :=
  ((((NewCache 10 true).addEntry "k1" "v1").addEntry "k2" "v2").addEntry "k3" "v3").RemoveOldest

/-- A cache with `maxBytes = 12` after `Add("a","1")`, `Add("b","2")` and `Add("c","3")`:
it holds all three entries. -/
def threeKeys : Cache String :=
  (((NewCache 12 false).addEntry "a" "1").addEntry "b" "2").addEntry "c" "3"

/-- The cache `NewCache(10)` after `Add("a", hugeValue)`: the insert step alone, the guard
of the loop being false on the counter it leaves. -/
def overflowed : Cache Sized := (NewCache 10 false).addEntry "a" hugeValue

/-- The states a cache can be in: built by `NewCache`, then any calls of `Add` (that
return), `Get` and `RemoveOldest`. -/
inductive Reachable {V : Type} [Value V] : Cache V → Prop
  | new (maxBytes : Int) (onEvicted : Bool) : Reachable (NewCache maxBytes onEvicted)
  | add {c c1 : Cache V} (key : String) (value : V) :
      Reachable c → c.Add key value = some c1 → Reachable c1
  | get {c : Cache V} (key : String) : Reachable c → Reachable (c.Get key).2
  | removeOldest {c : Cache V} : Reachable c → Reachable c.RemoveOldest

/-- The representation invariant of a cache: the addresses of the list elements are
distinct and below `fresh`, the index maps the key of every list element to its address and
maps nothing else, and the byte counter is the total footprint of the entries as an `int64`. -/
structure WF {V : Type} [Value V] (c : Cache V) : Prop where
  nodup : (c.ll.map Element.addr).Nodup
  indexed : ∀ e ∈ c.ll, c.index e.Value.key = some e.addr
  listed : ∀ k a, c.index k = some a → ∃ e ∈ c.ll, e.addr = a ∧ e.Value.key = k
  bytes : c.nbytes = int64 (total c.entries)
  below : ∀ e ∈ c.ll, e.addr < c.fresh

end lru

namespace consistenthash

/-- Type `Hash func(data []byte) uint32`. The conversion `[]byte(s)` is left implicit: a hash
function is given the string whose bytes it reads, and only its value `% 2^32` is used. -/
abbrev Hash := String → Nat

/-- Struct `Map` of `consistenthash.go`; `hashMap[p]` of a missing `p` is `none`. -/
structure Map where
  hash : Hash
  replicas : Int
  keys : List Int
  hashMap : Int → Option String

/-- One step of the bitwise CRC-32 of a byte: eight conditional shifts with the reflected
IEEE polynomial `0xEDB88320`. -/
def crcByte (crc : Nat) (b : UInt8) : Nat :=
  (List.range 8).foldl
    (fun x _ => if x % 2 = 1 then (x / 2) ^^^ 0xEDB88320 else x / 2)
    (crc ^^^ b.toNat)

/-- Function `crc32.ChecksumIEEE`, the default hash. -/
def ChecksumIEEE (s : String) : Nat :=
  (s.toUTF8.data.toList.foldl crcByte 0xFFFFFFFF) ^^^ 0xFFFFFFFF

/-- Constructor `New(replicas, fn)`; `none` is a nil `fn`. -/
def New (replicas : Int) (fn : Option Hash) : Map :=
  { hash := match fn with
      | some f => f
      | none => ChecksumIEEE,
    replicas := replicas, keys := [], hashMap := fun _ => none }

/-- Function `strconv.Itoa` on the loop counter, which is never negative. -/
def Itoa (i : Nat) : String := toString i

/-- The conversion `int(m.hash([]byte(s)))` of a `uint32` hash value. -/
def Map.position (m : Map) (s : String) : Int := ((m.hash s % 2 ^ 32 : Nat) : Int)

/-- The body of the inner loop of `Add`, for replica `i` of `key`. -/
def Map.addReplica (key : String) (m : Map) (i : Nat) : Map :=
  let hash := m.position (Itoa i ++ key)
  { m with
    keys := m.keys ++ [hash],
    hashMap := fun p => if p = hash then some key else m.hashMap p }

/-- The inner loop `for i := 0; i < m.replicas; i++` of `Add`, for one `key`. -/
def Map.addKey (m : Map) (key : String) : Map :=
  (List.range m.replicas.toNat).foldl (Map.addReplica key) m

/-- Function `sort.Ints`: the list in increasing order. -/
def Ints (l : List Int) : List Int := l.insertionSort (fun a b => a ≤ b)

/-- Method `Map.Add(keys ...string)`. -/
def Map.Add (m : Map) (keys : List String) : Map :=
  let m1 := keys.foldl Map.addKey m
  { m1 with keys := Ints m1.keys }

/-- The loop of `sort.Search`, with `i` and `j` its two variables, run for at most `fuel`
rounds. Each round shrinks `j - i`, so `fuel = n` is enough for `Search(n, f)`. -/
def searchLoop (f : Nat → Bool) : Nat → Nat → Nat → Nat
  | 0, i, _ => i
  | fuel + 1, i, j =>
    if i < j then
      let h := (i + j) / 2
      if !f h then searchLoop f fuel (h + 1) j else searchLoop f fuel i h
    else i

/-- Function `sort.Search(n, f)`. -/
def Search (n : Nat) (f : Nat → Bool) : Nat := searchLoop f n 0 n

/-- Method `Map.Get`. -/
def Map.Get (m : Map) (key : String) : String :=
  if m.keys.length = 0 then ""
  else
    let hash := m.position key
    let idx := Search m.keys.length (fun i => decide (m.keys.getD i 0 ≥ hash))
    (m.hashMap (m.keys.getD (idx % m.keys.length) 0)).getD ""

/-- A ring after a sequence of `Add` calls, each with its list of names. -/
def addCalls (m : Map) (calls : List (List String)) : Map := calls.foldl Map.Add m

/-- The assignments `m.hashMap[hash] = key` that `Add` makes for a list of names, in the
order in which it makes them: for each name, one for each replica `0 <= i < replicas`. -/
def Map.writes (m : Map) (names : List String) : List (Int × String) :=
  names.flatMap (fun key =>
    (List.range m.replicas.toNat).map (fun i => (m.position (Itoa i ++ key), key)))

/-- A map after a list of assignments, the later ones overwriting the earlier ones. -/
def applyWrites (hm : Int → Option String) (w : List (Int × String)) : Int → Option String :=
  w.foldl (fun hm pn => fun p => if p = pn.1 then some pn.2 else hm p) hm

/-- A hash function for examples: the number of bytes of the data. -/
def lengthHash : Hash := fun s => s.utf8ByteSize

/-- A hash function for examples, given by a table: the virtual nodes `"0A"` and `"1B"` have
the same value. -/
def tableHash : Hash := fun s =>
  if s = "0A" then 10 else if s = "1A" then 20 else if s = "0B" then 30
  else if s = "1B" then 10 else 0

/-- The lookup of `key` resolves to the ring position `p`: `p` is the least position that is
`>=` the hash of the key, or the least position of all when no position is. -/
def Map.resolves (m : Map) (key : String) (p : Int) : Prop :=
  p ∈ m.keys ∧
  ((m.position key ≤ p ∧ ∀ q ∈ m.keys, m.position key ≤ q → p ≤ q) ∨
   ((∀ q ∈ m.keys, q < m.position key) ∧ ∀ q ∈ m.keys, p ≤ q))

/-- The entries of `keys` that `hashMap` maps to `name`. -/
def Map.positionsOf (m : Map) (name : String) : List Int :=
  m.keys.filter (fun p => m.hashMap p == some name)

end consistenthash

namespace geecache

/-- Struct `ByteView`: an immutable view of bytes. -/
structure ByteView where
  b : List UInt8
deriving DecidableEq

/-- Method `ByteView.Len`. -/
def ByteView.Len (v : ByteView) : Int := (v.b.length : Int)

instance : lru.Value ByteView where
  Len := ByteView.Len
  Len_min := fun v => le_trans (by decide) (Int.ofNat_nonneg v.b.length)

/-- Function `cloneBytes`: a copy of the slice. Lists are values, so the copy is the list. -/
def cloneBytes (b : List UInt8) : List UInt8 := b

/-- Method `ByteView.ByteSlice`. -/
def ByteView.ByteSlice (v : ByteView) : List UInt8 := cloneBytes v.b

/-- Struct `cache` of `cache.go`. The mutex `mu` is not modelled: calls are taken one at a
time. A nil `lru` is `none`. -/
structure cache where
  lru : Option (lru.Cache ByteView)
  cacheBytes : Int

/-- Method `cache.add`; `none` when `lru.Add` never returns. The engine is built on first
use, with no `onEvicted` callback. -/
def cache.add (c : cache) (key : String) (value : ByteView) : Option cache :=
  let engine : lru.Cache ByteView :=
    match c.lru with
    | none => lru.NewCache c.cacheBytes false
    | some l => l
  match engine.Add key value with
  | some l1 => some { c with lru := some l1 }
  | none => none

/-- Method `cache.get`: `some v` is `(v, true)`, `none` is `(ByteView{}, false)`. -/
def cache.get (c : cache) (key : String) : Option ByteView × cache :=
  match c.lru with
  | none => (none, c)
  | some l =>
    match l.Get key with
    | (some v, l1) => (some v, { c with lru := some l1 })
    | (none, l1) => (none, { c with lru := some l1 })

/-- The engine of a facade, if it is built, is well formed and has the capacity of the
facade. -/
def cache.ok (c : cache) : Prop :=
  ∀ l, c.lru = some l → lru.WF l ∧ l.maxBytes = c.cacheBytes

/-- The errors that `Group.Get` returns: its own `errors.New("key is  required")`, a value
equal to no other error, or the error that the getter returned. -/
inductive GetError (E : Type) where
  | keyRequired : GetError E
  | getter (err : E) : GetError E
deriving DecidableEq

/-- What a `Group` does to its collaborators, in the order in which it does it. -/
inductive Event where
  | get (key : String) : Event
  | load (key : String) : Event
  | add (key : String) : Event
deriving DecidableEq

/-- Interface `Getter`: `Get(key) ([]byte, error)`. The getter is arbitrary code supplied by
the caller: it may keep a state of its own, `σ`, and fail with an error of type `E`. It does
not call back into the group. -/
abbrev Getter (σ E : Type) := String → σ → Except E (List UInt8) × σ

/-- Struct `Group`. `world` is the state of the getter and `trace` the calls made so far to
`mainCache.get`, to the getter and to `mainCache.add`. -/
structure Group (σ E : Type) where
  name : String
  getter : Getter σ E
  mainCache : cache
  world : σ
  trace : List Event

/-- Function `NewGroup`; `none` is `log.Fatal("nil Getter")`. The registration of the group in
the process-wide map `groups` is left out: nothing here reads it. -/
def NewGroup {σ E : Type} (name : String) (cacheBytes : Int) (getter : Option (Getter σ E))
    (world : σ) : Option (Group σ E) :=
  match getter with
  | none => none
  | some f =>
    some { name := name, getter := f, mainCache := { lru := none, cacheBytes := cacheBytes },
           world := world, trace := [] }

/-- Method `Group.populateCache`. -/
def Group.populateCache {σ E : Type} (g : Group σ E) (key : String) (value : ByteView) :
    Option (Group σ E) :=
  match g.mainCache.add key value with
  | some mc => some { g with mainCache := mc, trace := g.trace ++ [Event.add key] }
  | none => none

/-- Method `Group.getLocally`. The result is the pair `(ByteView, error)` that Go returns,
with the group after the call; `none` when the call never returns. -/
def Group.getLocally {σ E : Type} (g : Group σ E) (key : String) :
    Option ((ByteView × Option (GetError E)) × Group σ E) :=
  match g.getter key g.world with
  | (Except.error err, w) =>
    some ((⟨[]⟩, some (GetError.getter err)),
      { g with world := w, trace := g.trace ++ [Event.load key] })
  | (Except.ok bytes, w) =>
    let value : ByteView := ⟨cloneBytes bytes⟩
    match Group.populateCache { g with world := w, trace := g.trace ++ [Event.load key] }
        key value with
    | some g1 => some ((value, none), g1)
    | none => none

/-- Method `Group.load`. -/
def Group.load {σ E : Type} (g : Group σ E) (key : String) :
    Option ((ByteView × Option (GetError E)) × Group σ E) :=
  g.getLocally key

/-- Method `Group.Get`. -/
def Group.Get {σ E : Type} (g : Group σ E) (key : String) :
    Option ((ByteView × Option (GetError E)) × Group σ E) :=
  if key = "" then some ((⟨[]⟩, some GetError.keyRequired), g)
  else
    match g.mainCache.get key with
    | (some v, mc) =>
      some ((v, none), { g with mainCache := mc, trace := g.trace ++ [Event.get key] })
    | (none, mc) =>
      Group.load { g with mainCache := mc, trace := g.trace ++ [Event.get key] } key

/-- A sequence of `Get` calls on a group: the results in order and the group after them. -/
def Group.gets {σ E : Type} :
    Group σ E → List String → Option (List (ByteView × Option (GetError E)) × Group σ E)
  | g, [] => some ([], g)
  | g, key :: rest =>
    match g.Get key with
    | some (r, g1) =>
      match Group.gets g1 rest with
      | some (rs, g2) => some (r :: rs, g2)
      | none => none
    | none => none

/-- The groups a program can hold: built by `NewGroup`, then used through `Get`. -/
inductive Group.Reachable {σ E : Type} : Group σ E → Prop
  | new (name : String) (cacheBytes : Int) (getter : Getter σ E) (world : σ) :
      Group.Reachable { name := name, getter := getter,
                        mainCache := { lru := none, cacheBytes := cacheBytes },
                        world := world, trace := [] }
  | get {g g1 : Group σ E} (key : String) (r : ByteView × Option (GetError E)) :
      Group.Reachable g → g.Get key = some (r, g1) → Group.Reachable g1

/-- A getter for examples: it answers every key with the same five bytes and counts its
calls in its state. -/
def countingGetter : Getter Nat String := fun _ n => (Except.ok [118, 97, 108, 117, 101], n + 1)

/-- A getter for examples that fails on every key. -/
def failingGetter : Getter Nat String := fun key n => (Except.error ("no such key: " ++ key), n + 1)

/-- A group for examples with `cacheBytes = 4`, too small for the entry of any key. -/
def smallGroup : Group Nat String :=
  { name := "scores", getter := countingGetter, mainCache := { lru := none, cacheBytes := 4 },
    world := 0, trace := [] }

/-- A group for examples with `cacheBytes = 2048`. -/
def scoresGroup : Group Nat String :=
  { name := "scores", getter := countingGetter, mainCache := { lru := none, cacheBytes := 2048 },
    world := 0, trace := [] }

/-- A group for examples whose getter fails. -/
def brokenGroup : Group Nat String :=
  { name := "scores", getter := failingGetter, mainCache := { lru := none, cacheBytes := 2048 },
    world := 0, trace := [] }

end geecache

/-! ## Proofs: the LRU cache -/

namespace lru

/-! ### List facts used by the cache proofs -/

theorem find_split {α : Type} (p : α → Bool) (as bs : List α) (e : α)
    (has : ∀ x ∈ as, p x = false) (he : p e = true) :
    (as ++ e :: bs).find? p = some e := by
  induction as with
  | nil => simp [List.find?, he]
  | cons a as ih =>
    have ha : p a = false := has a (List.mem_cons_self _ _)
    have ih1 := ih (fun x hx => has x (List.mem_cons_of_mem _ hx))
    simp [List.find?, ha, ih1]

theorem eraseP_split {α : Type} (p : α → Bool) (as bs : List α) (e : α)
    (has : ∀ x ∈ as, p x = false) (he : p e = true) :
    (as ++ e :: bs).eraseP p = as ++ bs := by
  induction as with
  | nil => simp [List.eraseP, he]
  | cons a as ih =>
    have ha : p a = false := has a (List.mem_cons_self _ _)
    have ih1 := ih (fun x hx => has x (List.mem_cons_of_mem _ hx))
    simp [List.eraseP, ha, ih1]

/-! ### Arithmetic in `int64` -/

theorem int64_zero : int64 0 = 0 := by decide

theorem int64_range (a : Int) :
    -9223372036854775808 ≤ int64 a ∧ int64 a < 9223372036854775808 := by
  unfold int64
  omega

theorem int64_of_range (a : Int) (h1 : -9223372036854775808 ≤ a)
    (h2 : a < 9223372036854775808) : int64 a = a := by
  unfold int64
  omega

/-- The update of the counter for a new entry, in terms of exact sums. -/
theorem int64_ins (t a b : Int) :
    int64 (int64 t + int64 (int64 a + int64 b)) = int64 (t + (a + b)) := by
  unfold int64
  omega

/-- The update of the counter for a removed entry, in terms of exact sums. -/
theorem int64_del (t a b : Int) :
    int64 (int64 t - int64 (int64 a + int64 b)) = int64 (t - (a + b)) := by
  unfold int64
  omega

/-- The update of the counter for a replaced value, in terms of exact sums. -/
theorem int64_upd (t a b : Int) :
    int64 (int64 t + int64 (int64 a - int64 b)) = int64 (t + (a - b)) := by
  unfold int64
  omega

/-- A footprint that is at most `M` is at most `M` as an `int64` too, when it is not
below `-2^63`. -/
theorem int64_le_of_le (a M : Int) (h1 : -9223372036854775808 ≤ a) (h2 : a ≤ M) :
    int64 a ≤ M := by
  unfold int64
  omega

theorem total_nil {V : Type} [Value V] : total ([] : List (String × V)) = 0 := rfl

theorem total_cons {V : Type} [Value V] (p : String × V) (l : List (String × V)) :
    total (p :: l) = footprint p + total l := by
  simp [total]

theorem total_append {V : Type} [Value V] (l1 l2 : List (String × V)) :
    total (l1 ++ l2) = total l1 + total l2 := by
  simp [total]

/-! ### The representation invariant -/

/-- Two list elements with the same key are the same element. -/
theorem WF.key_inj {V : Type} [Value V] {c : Cache V} (h : WF c) {e1 e2 : Element V}
    (h1 : e1 ∈ c.ll) (h2 : e2 ∈ c.ll) (hk : e1.Value.key = e2.Value.key) :
    e1.addr = e2.addr := by
  have a1 := h.indexed e1 h1
  have a2 := h.indexed e2 h2
  rw [hk, a2] at a1
  exact (Option.some.inj a1).symm

/-- An indexed key splits the list around its element; no other element has its address
or its key. -/
theorem WF.split {V : Type} [Value V] {c : Cache V} (h : WF c) {k : String} {a : Nat}
    (hk : c.index k = some a) :
    ∃ as e bs, c.ll = as ++ e :: bs ∧ e.addr = a ∧ e.Value.key = k ∧
      (∀ x ∈ as, x.addr ≠ a ∧ x.Value.key ≠ k) ∧ (∀ x ∈ bs, x.addr ≠ a ∧ x.Value.key ≠ k) := by
  obtain ⟨e, he, hea, hek⟩ := h.listed k a hk
  obtain ⟨as, bs, hl⟩ := List.append_of_mem he
  have hnd := h.nodup
  rw [hl] at hnd
  simp only [List.map_append, List.map_cons] at hnd
  have hnd2 := List.nodup_append.mp hnd
  have hcons := List.nodup_cons.mp hnd2.2.1
  have hdisj := hnd2.2.2
  have hmem : ∀ x, x ∈ as ∨ x ∈ bs → x ∈ c.ll := by
    intro x hx
    rw [hl]
    rcases hx with hx | hx
    · exact List.mem_append_left _ hx
    · exact List.mem_append_right _ (List.mem_cons_of_mem _ hx)
  have has : ∀ x ∈ as, x.addr ≠ a := by
    intro x hx hxa
    have m1 : x.addr ∈ as.map Element.addr := List.mem_map_of_mem _ hx
    have m2 : x.addr ∈ e.addr :: bs.map Element.addr := by
      rw [hxa, hea]; exact List.mem_cons_self _ _
    exact hdisj m1 m2
  have hbs : ∀ x ∈ bs, x.addr ≠ a := by
    intro x hx hxa
    apply hcons.1
    rw [hea, ← hxa]
    exact List.mem_map_of_mem _ hx
  refine ⟨as, e, bs, hl, hea, hek, ?_, ?_⟩
  · intro x hx
    refine ⟨has x hx, ?_⟩
    intro hxk
    apply has x hx
    have := h.key_inj (hmem x (Or.inl hx)) he (hxk.trans hek.symm)
    rw [this, hea]
  · intro x hx
    refine ⟨hbs x hx, ?_⟩
    intro hxk
    apply hbs x hx
    have := h.key_inj (hmem x (Or.inr hx)) he (hxk.trans hek.symm)
    rw [this, hea]

theorem WF.new {V : Type} [Value V] (maxBytes : Int) (onEvicted : Bool) :
    WF (NewCache maxBytes onEvicted : Cache V) := by
  refine ⟨?_, ?_, ?_, ?_, ?_⟩ <;> simp [NewCache, Cache.entries, total, int64_zero]

/-- Reordering the list keeps the invariant. -/
theorem WF.perm {V : Type} [Value V] {c : Cache V} (h : WF c) {l : List (Element V)}
    (hp : l.Perm c.ll) : WF { c with ll := l } := by
  refine ⟨?_, ?_, ?_, ?_, ?_⟩
  · exact ((hp.map Element.addr).nodup_iff).mpr h.nodup
  · intro e he
    exact h.indexed e (hp.mem_iff.mp he)
  · intro k a hk
    obtain ⟨e, he, h1, h2⟩ := h.listed k a hk
    exact ⟨e, hp.mem_iff.mpr he, h1, h2⟩
  · show c.nbytes = int64 (total (l.map (fun e => (e.Value.key, e.Value.value))))
    rw [h.bytes]
    congr 1
    unfold total Cache.entries
    exact (((hp.map _).map footprint).sum_eq).symm
  · intro e he
    exact h.below e (hp.mem_iff.mp he)

/-- What `MoveToFront` does to a list split around the element moved. -/
theorem MoveToFront_split {V : Type} (as bs : List (Element V)) (e : Element V)
    (has : ∀ x ∈ as, x.addr ≠ e.addr) :
    MoveToFront (as ++ e :: bs) e.addr = e :: (as ++ bs) := by
  have h1 : ∀ x ∈ as, (fun x : Element V => x.addr == e.addr) x = false := by
    intro x hx
    simpa using has x hx
  have h2 : (fun x : Element V => x.addr == e.addr) e = true := by simp
  unfold MoveToFront
  rw [find_split _ as bs e h1 h2, eraseP_split _ as bs e h1 h2]

/-- A hit of `Get`: the element of the key is found, returned and moved to the front. -/
theorem Get_hit {V : Type} [Value V] {c : Cache V} (h : WF c) {k : String} {a : Nat}
    (hk : c.index k = some a) :
    ∃ as e bs, c.ll = as ++ e :: bs ∧ e.addr = a ∧ e.Value.key = k ∧
      (∀ x ∈ as, x.addr ≠ a ∧ x.Value.key ≠ k) ∧ (∀ x ∈ bs, x.addr ≠ a ∧ x.Value.key ≠ k) ∧
      c.Get k = (some e.Value.value, { c with ll := e :: (as ++ bs) }) := by
  obtain ⟨as, e, bs, hl, hea, hek, has, hbs⟩ := h.split hk
  refine ⟨as, e, bs, hl, hea, hek, has, hbs, ?_⟩
  have h1 : ∀ x ∈ as, (fun x : Element V => x.addr == a) x = false := by
    intro x hx
    simpa using (has x hx).1
  have h2 : (fun x : Element V => x.addr == a) e = true := by simp [hea]
  have hm := MoveToFront_split as bs e (fun x hx => by rw [hea]; exact (has x hx).1)
  rw [hea] at hm
  unfold Cache.Get
  rw [hk]
  simp only [hl, find_split _ as bs e h1 h2, hm]

/-- A key is indexed exactly when it is the key of a list element. -/
theorem WF.index_none_iff {V : Type} [Value V] {c : Cache V} (h : WF c) (k : String) :
    c.index k = none ↔ k ∉ c.keys := by
  constructor
  · intro hn hmem
    obtain ⟨e, he, hek⟩ := List.mem_map.mp hmem
    have := h.indexed e he
    rw [hek, hn] at this
    exact Option.noConfusion this
  · intro hn
    cases hi : c.index k with
    | none => rfl
    | some a =>
      obtain ⟨e, he, _, hek⟩ := h.listed k a hi
      exact absurd (List.mem_map.mpr ⟨e, he, hek⟩) hn

theorem Get_miss {V : Type} (c : Cache V) (k : String) (hk : c.index k = none) :
    c.Get k = (none, c) := by
  unfold Cache.Get
  rw [hk]

/-- The entries left when a list split around the element of key `k` loses that key. -/
theorem filter_split {V : Type} (as bs : List (Element V)) (e : Element V) (k : String)
    (hek : e.Value.key = k)
    (has : ∀ x ∈ as, x.Value.key ≠ k) (hbs : ∀ x ∈ bs, x.Value.key ≠ k) :
    ((as ++ e :: bs).map (fun e => (e.Value.key, e.Value.value))).filter (fun p => p.1 != k)
      = (as ++ bs).map (fun e => (e.Value.key, e.Value.value)) := by
  have h1 : ∀ l : List (Element V), (∀ x ∈ l, x.Value.key ≠ k) →
      (l.map (fun e => (e.Value.key, e.Value.value))).filter (fun p => p.1 != k)
        = l.map (fun e => (e.Value.key, e.Value.value)) := by
    intro l hl
    apply List.filter_eq_self.mpr
    intro p hp
    obtain ⟨x, hx, rfl⟩ := List.mem_map.mp hp
    simpa using hl x hx
  simp only [List.map_append, List.map_cons, List.filter_append, List.filter_cons]
  rw [h1 as has, h1 bs hbs]
  simp [hek]

/-- Method `Get` keeps the invariant. -/
theorem WF.get {V : Type} [Value V] {c : Cache V} (h : WF c) (k : String) : WF (c.Get k).2 := by
  cases hi : c.index k with
  | none => rw [Get_miss c k hi]; exact h
  | some a =>
    obtain ⟨as, e, bs, hl, _, _, _, _, hg⟩ := Get_hit h hi
    rw [hg]
    apply h.perm
    rw [hl]
    exact List.perm_middle.symm

/-- On a well-formed cache `Get` answers with the value listed for the key. -/
theorem Get_eq_lookup {V : Type} [Value V] {c : Cache V} (h : WF c) (k : String) :
    (c.Get k).1 = c.entries.lookup k := by
  cases hi : c.index k with
  | none =>
    rw [Get_miss c k hi]
    have hn := (h.index_none_iff k).mp hi
    symm
    apply List.lookup_eq_none_iff.mpr
    intro p hp
    obtain ⟨x, hx, rfl⟩ := List.mem_map.mp hp
    have hxk : x.Value.key ≠ k := fun hxk => hn (List.mem_map.mpr ⟨x, hx, hxk⟩)
    simpa using fun h => hxk h.symm
  | some a =>
    obtain ⟨as, e, bs, hl, _, hek, has, _, hg⟩ := Get_hit h hi
    rw [hg]
    unfold Cache.entries
    rw [hl]
    clear hl hg
    induction as with
    | nil => simp [List.lookup, hek]
    | cons x xs ih =>
      have hx : (k == x.Value.key) = false := by
        have := (has x (List.mem_cons_self _ _)).2
        simpa using fun h => this h.symm
      simp only [List.cons_append, List.map_cons, List.lookup, hx]
      exact ih (fun y hy => has y (List.mem_cons_of_mem _ hy))

/-! ### RemoveOldest -/

theorem RemoveOldest_ll {V : Type} [Value V] (c : Cache V) :
    c.RemoveOldest.ll = c.ll.dropLast := by
  unfold Cache.RemoveOldest
  cases hl : c.ll.getLast? with
  | none =>
    have := List.getLast?_eq_none_iff.mp hl
    simp [this]
  | some e => rfl

theorem RemoveOldest_maxBytes {V : Type} [Value V] (c : Cache V) :
    c.RemoveOldest.maxBytes = c.maxBytes := by
  unfold Cache.RemoveOldest
  cases c.ll.getLast? <;> rfl

theorem RemoveOldest_onEvicted {V : Type} [Value V] (c : Cache V) :
    c.RemoveOldest.onEvicted = c.onEvicted := by
  unfold Cache.RemoveOldest
  cases c.ll.getLast? <;> rfl

theorem RemoveOldest_nil {V : Type} [Value V] (c : Cache V) (h : c.ll = []) :
    c.RemoveOldest = c := by
  unfold Cache.RemoveOldest
  simp [h]

theorem RemoveOldest_entries {V : Type} [Value V] (c : Cache V) :
    c.RemoveOldest.entries = c.entries.dropLast := by
  unfold Cache.entries
  rw [RemoveOldest_ll, List.map_dropLast]

/-- Method `RemoveOldest` keeps the invariant. -/
theorem WF.removeOldest {V : Type} [Value V] {c : Cache V} (h : WF c) : WF c.RemoveOldest := by
  cases hl : c.ll.getLast? with
  | none =>
    rw [RemoveOldest_nil c (List.getLast?_eq_none_iff.mp hl)]
    exact h
  | some e =>
    have hsplit : c.ll.dropLast ++ [e] = c.ll := List.dropLast_append_getLast? e hl
    have he : e ∈ c.ll := by rw [← hsplit]; simp
    have hsub : ∀ x ∈ c.ll.dropLast, x ∈ c.ll := fun x hx => List.dropLast_subset _ hx
    have hnd : ((c.ll.dropLast ++ [e]).map Element.addr).Nodup := by rw [hsplit]; exact h.nodup
    simp only [List.map_append, List.map_cons, List.map_nil] at hnd
    have hnd2 := List.nodup_append.mp hnd
    have hne : ∀ x ∈ c.ll.dropLast, x.addr ≠ e.addr := by
      intro x hx hxe
      exact hnd2.2.2 (List.mem_map_of_mem _ hx) (by rw [hxe]; simp)
    have hkey : ∀ x ∈ c.ll.dropLast, x.Value.key ≠ e.Value.key := by
      intro x hx hxk
      exact hne x hx (h.key_inj (hsub x hx) he hxk)
    have hdef : c.RemoveOldest =
        { c with
          ll := c.ll.dropLast,
          index := fun k => if k = e.Value.key then none else c.index k,
          nbytes := int64 (c.nbytes - int64 (int64 (len e.Value.key) + int64 (Value.Len e.Value.value))),
          calls := if c.onEvicted then
              c.calls ++ [{ key := e.Value.key, value := e.Value.value, ll := c.ll.dropLast,
                            indexed := ((fun k => if k = e.Value.key then none else c.index k)
                              e.Value.key).isSome,
                            nbytes := int64 (c.nbytes - int64 (int64 (len e.Value.key) + int64 (Value.Len e.Value.value))) }]
            else c.calls } := by
      unfold Cache.RemoveOldest
      rw [hl]
    rw [hdef]
    refine ⟨hnd2.1, ?_, ?_, ?_, ?_⟩
    · intro x hx
      show (if x.Value.key = e.Value.key then none else c.index x.Value.key) = some x.addr
      rw [if_neg (hkey x hx)]
      exact h.indexed x (hsub x hx)
    · intro k a hk
      have hk1 : (if k = e.Value.key then none else c.index k) = some a := hk
      by_cases hke : k = e.Value.key
      · rw [if_pos hke] at hk1
        exact Option.noConfusion hk1
      · rw [if_neg hke] at hk1
        obtain ⟨x, hx, hxa, hxk⟩ := h.listed k a hk1
        refine ⟨x, ?_, hxa, hxk⟩
        have hx2 : x ∈ c.ll.dropLast ++ [e] := by rw [hsplit]; exact hx
        rcases List.mem_append.mp hx2 with h1 | h1
        · exact h1
        · have hxe : x = e := by simpa using h1
          exact absurd (hxe ▸ hxk).symm hke
    · show int64 (c.nbytes - int64 (int64 (len e.Value.key) + int64 (Value.Len e.Value.value)))
        = int64 (total (c.ll.dropLast.map (fun e => (e.Value.key, e.Value.value))))
      have hb := h.bytes
      unfold Cache.entries at hb
      rw [← hsplit, List.map_append, total_append] at hb
      simp only [List.map_cons, List.map_nil, total_cons, total_nil, footprint] at hb
      rw [hb, int64_del]
      congr 1
      omega
    · intro x hx
      exact h.below x (hsub x hx)

/-! ### The insert-or-update step of Add -/

theorem addEntry_maxBytes {V : Type} [Value V] (c : Cache V) (k : String) (v : V) :
    (c.addEntry k v).maxBytes = c.maxBytes := by
  unfold Cache.addEntry
  split
  · split <;> rfl
  · rfl

theorem addEntry_onEvicted {V : Type} [Value V] (c : Cache V) (k : String) (v : V) :
    (c.addEntry k v).onEvicted = c.onEvicted := by
  unfold Cache.addEntry
  split
  · split <;> rfl
  · rfl

theorem addEntry_calls {V : Type} [Value V] (c : Cache V) (k : String) (v : V) :
    (c.addEntry k v).calls = c.calls := by
  unfold Cache.addEntry
  split
  · split <;> rfl
  · rfl

theorem setValue_of_ne {V : Type} (l : List (Element V)) (a : Nat) (v : V)
    (h : ∀ x ∈ l, x.addr ≠ a) : setValue l a v = l := by
  unfold setValue
  conv_rhs => rw [← List.map_id l]
  apply List.map_congr_left
  intro x hx
  have : (x.addr == a) = false := by simpa using h x hx
  simp [this]

/-- The update branch of `Add`, on a list split around the element of the key. -/
theorem addEntry_hit {V : Type} [Value V] {c : Cache V} (h : WF c) {k : String} {a : Nat}
    (v : V) (hk : c.index k = some a) :
    ∃ as e bs, c.ll = as ++ e :: bs ∧ e.addr = a ∧ e.Value.key = k ∧
      (∀ x ∈ as, x.addr ≠ a ∧ x.Value.key ≠ k) ∧ (∀ x ∈ bs, x.addr ≠ a ∧ x.Value.key ≠ k) ∧
      c.addEntry k v =
        { c with
          ll := { addr := a, Value := { key := k, value := v } } :: (as ++ bs),
          nbytes := int64 (c.nbytes + int64 (int64 (Value.Len v) - int64 (Value.Len e.Value.value))) } := by
  obtain ⟨as, e, bs, hl, hea, hek, has, hbs⟩ := h.split hk
  refine ⟨as, e, bs, hl, hea, hek, has, hbs, ?_⟩
  have h1 : ∀ x ∈ as, (fun x : Element V => x.addr == a) x = false := by
    intro x hx
    simpa using (has x hx).1
  have h2 : (fun x : Element V => x.addr == a) e = true := by simp [hea]
  have hm := MoveToFront_split as bs e (fun x hx => by rw [hea]; exact (has x hx).1)
  rw [hea] at hm
  have hrest : setValue (as ++ bs) a v = as ++ bs := by
    apply setValue_of_ne
    intro x hx
    rcases List.mem_append.mp hx with hx | hx
    · exact (has x hx).1
    · exact (hbs x hx).1
  have hset : setValue (e :: (as ++ bs)) a v
      = { addr := a, Value := { key := k, value := v } } :: (as ++ bs) := by
    have hunf : setValue (e :: (as ++ bs)) a v
        = (if e.addr == a then { e with Value := { e.Value with value := v } } else e)
            :: setValue (as ++ bs) a v := rfl
    rw [hunf, hrest]
    simp [hea, hek]
  unfold Cache.addEntry
  rw [hk]
  simp only [hl, find_split _ as bs e h1 h2, hm, hset]

/-- The insert-or-update step keeps the invariant and puts the entry in front of the
others, whose order does not change. -/
theorem addEntry_spec {V : Type} [Value V] {c : Cache V} (h : WF c) (k : String) (v : V) :
    WF (c.addEntry k v) ∧
    (c.addEntry k v).entries = (k, v) :: c.entries.filter (fun p => p.1 != k) := by
  cases hi : c.index k with
  | none =>
    have hn := (h.index_none_iff k).mp hi
    have hkey : ∀ x ∈ c.ll, x.Value.key ≠ k := fun x hx hxk =>
      hn (List.mem_map.mpr ⟨x, hx, hxk⟩)
    have hdef : c.addEntry k v =
        { c with
          ll := { addr := c.fresh, Value := { key := k, value := v } } :: c.ll,
          index := fun k1 => if k1 = k then some c.fresh else c.index k1,
          nbytes := int64 (c.nbytes + int64 (int64 (len k) + int64 (Value.Len v))),
          fresh := c.fresh + 1 } := by
      unfold Cache.addEntry
      rw [hi]
    rw [hdef]
    refine ⟨⟨?_, ?_, ?_, ?_, ?_⟩, ?_⟩
    · show ((({ addr := c.fresh, Value := { key := k, value := v } } : Element V) :: c.ll).map
        Element.addr).Nodup
      rw [List.map_cons, List.nodup_cons]
      refine ⟨?_, h.nodup⟩
      intro hmem
      obtain ⟨x, hx, hxa⟩ := List.mem_map.mp hmem
      have := h.below x hx
      have hxa1 : x.addr = c.fresh := hxa
      omega
    · intro x hx
      show (if x.Value.key = k then some c.fresh else c.index x.Value.key) = some x.addr
      rcases List.mem_cons.mp hx with hx | hx
      · rw [hx]
        simp
      · rw [if_neg (hkey x hx)]
        exact h.indexed x hx
    · intro k1 a hk
      have hk1 : (if k1 = k then some c.fresh else c.index k1) = some a := hk
      by_cases hkk : k1 = k
      · rw [if_pos hkk] at hk1
        refine ⟨{ addr := c.fresh, Value := { key := k, value := v } },
          List.mem_cons_self _ _, Option.some.inj hk1, hkk.symm⟩
      · rw [if_neg hkk] at hk1
        obtain ⟨x, hx, hxa, hxk⟩ := h.listed k1 a hk1
        exact ⟨x, List.mem_cons_of_mem _ hx, hxa, hxk⟩
    · show int64 (c.nbytes + int64 (int64 (len k) + int64 (Value.Len v)))
        = int64 (total ((({ addr := c.fresh, Value := { key := k, value := v } } : Element V)
            :: c.ll).map (fun e => (e.Value.key, e.Value.value))))
      rw [List.map_cons, total_cons, h.bytes, int64_ins]
      simp only [footprint, Cache.entries]
      congr 1
      omega
    · intro x hx
      show x.addr < c.fresh + 1
      rcases List.mem_cons.mp hx with hx | hx
      · rw [hx]
        exact Nat.lt_succ_self _
      · exact Nat.lt_succ_of_lt (h.below x hx)
    · show ((({ addr := c.fresh, Value := { key := k, value := v } } : Element V) :: c.ll).map
          (fun e => (e.Value.key, e.Value.value)))
        = (k, v) :: c.entries.filter (fun p => p.1 != k)
      rw [List.map_cons]
      congr 1
      symm
      apply List.filter_eq_self.mpr
      intro p hp
      obtain ⟨x, hx, rfl⟩ := List.mem_map.mp hp
      simpa using hkey x hx
  | some a =>
    obtain ⟨as, e, bs, hl, hea, hek, has, hbs, hdef⟩ := addEntry_hit h v hi
    have hmem : ∀ x, x ∈ as ++ bs → x ∈ c.ll := by
      intro x hx
      rw [hl]
      rcases List.mem_append.mp hx with hx | hx
      · exact List.mem_append_left _ hx
      · exact List.mem_append_right _ (List.mem_cons_of_mem _ hx)
    have hperm : (e :: (as ++ bs)).Perm c.ll := by
      rw [hl]
      exact List.perm_middle.symm
    have hwf1 := h.perm hperm
    rw [hdef]
    refine ⟨⟨?_, ?_, ?_, ?_, ?_⟩, ?_⟩
    · have := hwf1.nodup
      simpa [hea] using this
    · intro x hx
      rcases List.mem_cons.mp hx with hx | hx
      · rw [hx]
        exact hi
      · exact h.indexed x (hmem x hx)
    · intro k1 a1 hk1
      obtain ⟨x, hx, hxa, hxk⟩ := hwf1.listed k1 a1 hk1
      rcases List.mem_cons.mp hx with hx | hx
      · refine ⟨_, List.mem_cons_self _ _, ?_, ?_⟩
        · show a = a1
          rw [← hxa, hx, hea]
        · show k = k1
          rw [← hxk, hx, hek]
      · exact ⟨x, List.mem_cons_of_mem _ hx, hxa, hxk⟩
    · show int64 (c.nbytes + int64 (int64 (Value.Len v) - int64 (Value.Len e.Value.value)))
        = int64 (total ((({ addr := a, Value := { key := k, value := v } } : Element V)
            :: (as ++ bs)).map (fun e => (e.Value.key, e.Value.value))))
      have hb := hwf1.bytes
      have hb1 : c.nbytes
          = int64 (total ((e :: (as ++ bs)).map (fun e => (e.Value.key, e.Value.value)))) := hb
      rw [List.map_cons, total_cons] at hb1 ⊢
      simp only [footprint] at hb1 ⊢
      rw [hek] at hb1
      rw [hb1, int64_upd]
      congr 1
      omega
    · intro x hx
      rcases List.mem_cons.mp hx with hx | hx
      · rw [hx]
        show a < c.fresh
        rw [← hea]
        exact h.below e (by rw [hl]; simp)
      · exact h.below x (hmem x hx)
    · show ((({ addr := a, Value := { key := k, value := v } } : Element V) :: (as ++ bs)).map
          (fun e => (e.Value.key, e.Value.value)))
        = (k, v) :: c.entries.filter (fun p => p.1 != k)
      rw [List.map_cons]
      congr 1
      unfold Cache.entries
      rw [hl]
      exact (filter_split as bs e k hek (fun x hx => (has x hx).2) (fun x hx => (hbs x hx).2)).symm

/-! ### The eviction loop -/

theorem entries_take {V : Type} (c : Cache V) (j : Nat) :
    c.entries.take j = (c.ll.take j).map (fun e => (e.Value.key, e.Value.value)) := by
  unfold Cache.entries
  rw [List.map_take]

theorem evictLoop_unbounded {V : Type} [Value V] (n : Nat) (c : Cache V) (h : c.maxBytes = 0) :
    Cache.evictLoop n c = some c := by
  cases n <;> simp [Cache.evictLoop, h]

/-- With an empty list and a true guard the loop never exits, whatever the number of
rounds it is given. -/
theorem evictLoop_spins {V : Type} [Value V] (n : Nat) (c : Cache V) (hl : c.ll = [])
    (hg : c.maxBytes ≠ 0 ∧ c.maxBytes < c.nbytes) : Cache.evictLoop n c = none := by
  induction n with
  | zero => simp [Cache.evictLoop, hg]
  | succ n ih =>
    unfold Cache.evictLoop
    rw [if_pos hg, RemoveOldest_nil c hl]
    exact ih

/-- A `none` of the loop started with the length of the list is not a lack of rounds: the
loop then returns nothing however many rounds it is given. -/
theorem evictLoop_none_forever {V : Type} [Value V] (n : Nat) :
    ∀ (c : Cache V), c.ll.length = n → Cache.evictLoop n c = none →
      ∀ m, Cache.evictLoop m c = none := by
  induction n with
  | zero =>
    intro c hn hrun m
    have hl : c.ll = [] := List.length_eq_zero.mp hn
    unfold Cache.evictLoop at hrun
    split at hrun
    · rename_i hg
      exact evictLoop_spins m c hl hg
    · exact Option.noConfusion hrun
  | succ n ih =>
    intro c hn hrun m
    unfold Cache.evictLoop at hrun
    split at hrun
    · rename_i hg
      have hlen : c.RemoveOldest.ll.length = n := by
        rw [RemoveOldest_ll, List.length_dropLast, hn]
        rfl
      have hall := ih c.RemoveOldest hlen hrun
      cases m with
      | zero =>
        unfold Cache.evictLoop
        rw [if_pos hg]
      | succ m =>
        unfold Cache.evictLoop
        rw [if_pos hg]
        exact hall m
    · exact Option.noConfusion hrun

/-- A result of the loop does not depend on the number of rounds allowed beyond those it
needs. -/
theorem evictLoop_more {V : Type} [Value V] (n : Nat) :
    ∀ (c c1 : Cache V), Cache.evictLoop n c = some c1 → Cache.evictLoop (n + 1) c = some c1 := by
  induction n with
  | zero =>
    intro c c1 hrun
    unfold Cache.evictLoop at hrun
    split at hrun
    · exact Option.noConfusion hrun
    · rename_i hg
      unfold Cache.evictLoop
      rw [if_neg hg]
      exact hrun
  | succ n ih =>
    intro c c1 hrun
    unfold Cache.evictLoop at hrun
    split at hrun
    · rename_i hg
      have := ih c.RemoveOldest c1 hrun
      conv_lhs => unfold Cache.evictLoop
      rw [if_pos hg]
      exact this
    · rename_i hg
      unfold Cache.evictLoop
      rw [if_neg hg]
      exact hrun

/-- The loop on a well-formed cache. If some prefix of the recency order passes the test of
the guard, the loop exits, and what it leaves is the longest such prefix. -/
theorem evictLoop_spec {V : Type} [Value V] (n : Nat) :
    ∀ (c : Cache V), WF c → c.ll.length = n →
      (∃ j, j ≤ n ∧ ¬ (c.maxBytes ≠ 0 ∧ c.maxBytes < int64 (total (c.entries.take j)))) →
      ∃ c1 j, Cache.evictLoop n c = some c1 ∧ WF c1 ∧ j ≤ n ∧ c1.ll = c.ll.take j ∧
        c1.maxBytes = c.maxBytes ∧ c1.onEvicted = c.onEvicted ∧
        ¬ (c.maxBytes ≠ 0 ∧ c.maxBytes < int64 (total (c.entries.take j))) ∧
        ∀ i, j < i → i ≤ n → c.maxBytes ≠ 0 ∧ c.maxBytes < int64 (total (c.entries.take i)) := by
  induction n with
  | zero =>
    intro c h hn hfit
    have hl : c.ll = [] := List.length_eq_zero.mp hn
    have hb : c.nbytes = 0 := by rw [h.bytes]; simp [Cache.entries, hl, total, int64_zero]
    obtain ⟨jf, hjf, hfitj⟩ := hfit
    have hj0 : jf = 0 := Nat.le_zero.mp hjf
    rw [hj0] at hfitj
    have hg : ¬ (c.maxBytes ≠ 0 ∧ c.maxBytes < c.nbytes) := by
      rw [hb]
      simpa [total, int64_zero] using hfitj
    refine ⟨c, 0, ?_, h, le_refl _, ?_, rfl, rfl, hfitj, ?_⟩
    · show (if c.maxBytes ≠ 0 ∧ c.maxBytes < c.nbytes then none else some c) = _
      rw [if_neg hg]
    · simp [hl]
    · intro i h1 h2
      omega
  | succ n ih =>
    intro c h hn hfit
    have hfull : c.entries.take (n + 1) = c.entries := by
      apply List.take_of_length_le
      simp [Cache.entries, hn]
    by_cases hg : c.maxBytes ≠ 0 ∧ c.maxBytes < c.nbytes
    · have hstep : Cache.evictLoop (n + 1) c = Cache.evictLoop n c.RemoveOldest := by
        show (if c.maxBytes ≠ 0 ∧ c.maxBytes < c.nbytes then Cache.evictLoop n c.RemoveOldest
          else some c) = _
        rw [if_pos hg]
      have hlen : c.RemoveOldest.ll.length = n := by
        rw [RemoveOldest_ll, List.length_dropLast, hn]
        rfl
      have htake : ∀ i, i ≤ n → c.RemoveOldest.entries.take i = c.entries.take i := by
        intro i hi
        rw [RemoveOldest_entries, List.dropLast_eq_take, List.take_take]
        have : c.entries.length = n + 1 := by simp [Cache.entries, hn]
        rw [this]
        congr 1
        omega
      have htakel : ∀ i, i ≤ n → c.RemoveOldest.ll.take i = c.ll.take i := by
        intro i hi
        rw [RemoveOldest_ll, List.dropLast_eq_take, List.take_take, hn]
        congr 1
        omega
      obtain ⟨jf, hjf, hfitj⟩ := hfit
      have hjn : jf ≤ n := by
        by_contra hcon
        have : jf = n + 1 := by omega
        rw [this, hfull, ← h.bytes] at hfitj
        exact hfitj hg
      have hfit1 : ∃ j, j ≤ n ∧ ¬ (c.RemoveOldest.maxBytes ≠ 0 ∧
          c.RemoveOldest.maxBytes < int64 (total (c.RemoveOldest.entries.take j))) := by
        refine ⟨jf, hjn, ?_⟩
        rw [RemoveOldest_maxBytes, htake jf hjn]
        exact hfitj
      obtain ⟨c1, j, hrun, hwf, hj, hll, hmax, hev, hstop, hlong⟩ :=
        ih c.RemoveOldest h.removeOldest hlen hfit1
      refine ⟨c1, j, hstep.trans hrun, hwf, Nat.le_succ_of_le hj, ?_, ?_, ?_, ?_, ?_⟩
      · rw [hll, htakel j hj]
      · rw [hmax, RemoveOldest_maxBytes]
      · rw [hev, RemoveOldest_onEvicted]
      · rw [RemoveOldest_maxBytes, htake j hj] at hstop
        exact hstop
      · intro i h1 h2
        by_cases hi : i ≤ n
        · have := hlong i h1 hi
          rw [RemoveOldest_maxBytes, htake i hi] at this
          exact this
        · have hi1 : i = n + 1 := by omega
          rw [hi1, hfull, ← h.bytes]
          exact hg
    · refine ⟨c, n + 1, ?_, h, le_refl _, ?_, rfl, rfl, ?_, ?_⟩
      · show (if c.maxBytes ≠ 0 ∧ c.maxBytes < c.nbytes then Cache.evictLoop n c.RemoveOldest
          else some c) = _
        rw [if_neg hg]
      · rw [List.take_of_length_le (by rw [hn])]
      · rw [hfull, ← h.bytes]
        exact hg
      · intro i h1 h2
        omega

/-- Method `Add` on a well-formed cache: when some prefix of the recency order that `addEntry`
leaves passes the test of the guard, `Add` returns, and leaves the longest such prefix. -/
theorem Add_spec {V : Type} [Value V] {c : Cache V} (h : WF c) (k : String) (v : V)
    (hfit : ∃ j, j ≤ (c.addEntry k v).ll.length ∧
      ¬ (c.maxBytes ≠ 0 ∧ c.maxBytes < int64 (total ((c.addEntry k v).entries.take j)))) :
    ∃ c1 j, c.Add k v = some c1 ∧ WF c1 ∧ j ≤ (c.addEntry k v).ll.length ∧
      c1.ll = (c.addEntry k v).ll.take j ∧
      c1.maxBytes = c.maxBytes ∧ c1.onEvicted = c.onEvicted ∧
      ¬ (c.maxBytes ≠ 0 ∧ c.maxBytes < int64 (total ((c.addEntry k v).entries.take j))) ∧
      ∀ i, j < i → i ≤ (c.addEntry k v).ll.length →
        c.maxBytes ≠ 0 ∧ c.maxBytes < int64 (total ((c.addEntry k v).entries.take i)) := by
  have hwf := (addEntry_spec h k v).1
  have hm := addEntry_maxBytes c k v
  have hfit1 : ∃ j, j ≤ (c.addEntry k v).ll.length ∧
      ¬ ((c.addEntry k v).maxBytes ≠ 0 ∧
        (c.addEntry k v).maxBytes < int64 (total ((c.addEntry k v).entries.take j))) := by
    rw [hm]
    exact hfit
  obtain ⟨c1, j, hrun, hwf1, hj, hll, hmax, hev, hstop, hlong⟩ :=
    evictLoop_spec (c.addEntry k v).ll.length (c.addEntry k v) hwf rfl hfit1
  rw [hm] at hmax hstop hlong
  rw [addEntry_onEvicted] at hev
  exact ⟨c1, j, hrun, hwf1, hj, hll, hmax, hev, hstop, hlong⟩

/-- With `maxBytes >= 0` the empty prefix always passes the test of the guard. -/
theorem fit_of_nonneg {V : Type} [Value V] (c : Cache V) (n : Nat) (h : 0 ≤ c.maxBytes) :
    ∃ j, j ≤ n ∧ ¬ (c.maxBytes ≠ 0 ∧ c.maxBytes < int64 (total (c.entries.take j))) := by
  refine ⟨0, Nat.zero_le _, ?_⟩
  simp only [List.take_zero, total_nil, int64_zero]
  omega

/-- Whatever the loop returns is well formed. -/
theorem evictLoop_wf {V : Type} [Value V] (n : Nat) :
    ∀ (c c1 : Cache V), WF c → Cache.evictLoop n c = some c1 → WF c1 := by
  induction n with
  | zero =>
    intro c c1 h hrun
    unfold Cache.evictLoop at hrun
    split at hrun
    · exact Option.noConfusion hrun
    · rw [← Option.some.inj hrun]
      exact h
  | succ n ih =>
    intro c c1 h hrun
    unfold Cache.evictLoop at hrun
    split at hrun
    · exact ih c.RemoveOldest c1 h.removeOldest hrun
    · rw [← Option.some.inj hrun]
      exact h

/-- Method `Add` keeps the invariant. -/
theorem WF.add {V : Type} [Value V] {c c1 : Cache V} (h : WF c) {k : String} {v : V}
    (hadd : c.Add k v = some c1) : WF c1 :=
  evictLoop_wf _ _ _ (addEntry_spec h k v).1 hadd

/-- Every reachable state is well formed. -/
theorem Reachable.wf {V : Type} [Value V] {c : Cache V} (h : Reachable c) : WF c := by
  induction h with
  | new m e => exact WF.new m e
  | add key value _ hadd ih => exact ih.add hadd
  | get key _ ih => exact ih.get key
  | removeOldest _ ih => exact ih.removeOldest

/-- Whatever the loop returns is a prefix of the recency order it started from. -/
theorem evictLoop_take {V : Type} [Value V] (n : Nat) :
    ∀ (c c1 : Cache V), Cache.evictLoop n c = some c1 →
      ∃ j, c1.ll = c.ll.take j ∧ c1.maxBytes = c.maxBytes ∧ c1.onEvicted = c.onEvicted := by
  induction n with
  | zero =>
    intro c c1 hrun
    unfold Cache.evictLoop at hrun
    split at hrun
    · exact Option.noConfusion hrun
    · rw [← Option.some.inj hrun]
      exact ⟨c.ll.length, (List.take_length _).symm, rfl, rfl⟩
  | succ n ih =>
    intro c c1 hrun
    unfold Cache.evictLoop at hrun
    split at hrun
    · obtain ⟨j, hj, hm, he⟩ := ih c.RemoveOldest c1 hrun
      refine ⟨min j (c.ll.length - 1), ?_, ?_, ?_⟩
      · rw [hj, RemoveOldest_ll, List.dropLast_eq_take, List.take_take]
      · rw [hm, RemoveOldest_maxBytes]
      · rw [he, RemoveOldest_onEvicted]
    · rw [← Option.some.inj hrun]
      exact ⟨c.ll.length, (List.take_length _).symm, rfl, rfl⟩

/-- What `Add` returns holds a prefix of the recency order that `addEntry` built. -/
theorem Add_take {V : Type} [Value V] {c c1 : Cache V} (h : WF c) {k : String} {v : V}
    (hadd : c.Add k v = some c1) :
    WF c1 ∧ c1.maxBytes = c.maxBytes ∧ c1.onEvicted = c.onEvicted ∧
    ∃ j, c1.entries = ((k, v) :: c.entries.filter (fun p => p.1 != k)).take j := by
  obtain ⟨j, hj, hm, he⟩ := evictLoop_take _ _ _ hadd
  refine ⟨h.add hadd, ?_, ?_, j, ?_⟩
  · rw [hm, addEntry_maxBytes]
  · rw [he, addEntry_onEvicted]
  · rw [← (addEntry_spec h k v).2, entries_take, ← hj]
    rfl

/-- With `maxBytes >= 0`, `Add` returns on every well-formed cache, and when `maxBytes` is
not zero the byte counter it leaves is at most `maxBytes`. -/
theorem Add_returns {V : Type} [Value V] {c : Cache V} (h : WF c) (hM : 0 ≤ c.maxBytes)
    (k : String) (v : V) :
    ∃ c1, c.Add k v = some c1 ∧ WF c1 ∧ c1.maxBytes = c.maxBytes ∧
      c1.onEvicted = c.onEvicted ∧ (c.maxBytes ≠ 0 → c1.nbytes ≤ c.maxBytes) := by
  have hfit := fit_of_nonneg (c.addEntry k v) (c.addEntry k v).ll.length
    (by rw [addEntry_maxBytes]; exact hM)
  rw [addEntry_maxBytes] at hfit
  obtain ⟨c1, j, hrun, hwf, _, hll, hmax, hev, hstop, _⟩ := Add_spec h k v hfit
  refine ⟨c1, hrun, hwf, hmax, hev, ?_⟩
  intro hne
  have hb : c1.nbytes = int64 (total ((c.addEntry k v).entries.take j)) := by
    rw [hwf.bytes, entries_take, ← hll]
    rfl
  rw [hb]
  by_contra hcon
  exact hstop ⟨hne, not_le.mp hcon⟩

/-- A sequence of `Add` calls on a well-formed cache with `maxBytes > 0`. -/
theorem addAll_bounded {V : Type} [Value V] (ops : List (String × V)) :
    ∀ (c : Cache V), WF c → 0 < c.maxBytes → c.nbytes ≤ c.maxBytes →
      ∃ c1, addAll c ops = some c1 ∧ WF c1 ∧ c1.maxBytes = c.maxBytes ∧
        c1.nbytes ≤ c.maxBytes := by
  induction ops with
  | nil =>
    intro c h _ hb
    exact ⟨c, rfl, h, rfl, hb⟩
  | cons op rest ih =>
    intro c h hM _
    obtain ⟨k, v⟩ := op
    obtain ⟨c1, hrun, hwf, hmax, _, hle⟩ := Add_returns h (le_of_lt hM) k v
    have hle1 : c1.nbytes ≤ c1.maxBytes := by
      rw [hmax]
      exact hle (ne_of_gt hM)
    obtain ⟨c2, hrun2, hwf2, hmax2, hle2⟩ := ih c1 hwf (by rw [hmax]; exact hM) hle1
    refine ⟨c2, ?_, hwf2, hmax2.trans hmax, ?_⟩
    · show (match c.Add k v with
        | some c1 => addAll c1 rest
        | none => none) = some c2
      rw [hrun]
      exact hrun2
    · rw [← hmax]
      exact hle2

/-- A sequence of `Add` calls that returns leads from a reachable state to a reachable
state. -/
theorem Reachable.addAll {V : Type} [Value V] (ops : List (String × V)) :
    ∀ (c c1 : Cache V), Reachable c → lru.addAll c ops = some c1 → Reachable c1 := by
  induction ops with
  | nil =>
    intro c c1 h hrun
    rw [← Option.some.inj hrun]
    exact h
  | cons op rest ih =>
    intro c c1 h hrun
    obtain ⟨k, v⟩ := op
    unfold lru.addAll at hrun
    split at hrun
    · rename_i c2 hadd
      exact ih c2 c1 (Reachable.add k v h hadd) hrun
    · exact Option.noConfusion hrun

/-! ### The claims on the LRU cache -/

/-- C1. For a cache built by `NewCache` with `maxBytes = M > 0`, every sequence of `Add`
calls returns, and the byte counter it leaves is at most `M`. Every prefix of a sequence is a
sequence, so the bound holds after each call. No assumption on the sign of `Len` is needed. -/
theorem add_nbytes_le_maxBytes {V : Type} [Value V] (M : Int) (onEvicted : Bool)
    (ops : List (String × V)) (hM : 0 < M) :
    ∃ c, addAll (NewCache M onEvicted) ops = some c ∧ c.maxBytes = M ∧ c.nbytes ≤ M := by
  obtain ⟨c, hrun, _, hmax, hle⟩ :=
    addAll_bounded ops (NewCache M onEvicted) (WF.new M onEvicted) hM (le_of_lt hM)
  exact ⟨c, hrun, hmax, hle⟩

theorem add_nbytes_le_maxBytes_witness :
    (0 : Int) < 10 ∧
    ∃ c : Cache String, addAll (NewCache 10 true) [("k1", "v1"), ("k2", "v2"), ("k3", "v3")]
      = some c ∧ c.maxBytes = 10 ∧ c.nbytes ≤ 10 :=
  ⟨by decide, add_nbytes_le_maxBytes 10 true [("k1", "v1"), ("k2", "v2"), ("k3", "v3")]
    (by decide)⟩

theorem scenario_run :
    addAll (NewCache 10 true) [("k1", "v1"), ("k2", "v2"), ("k3", "v3")] = some scenario := rfl

theorem scenario_reachable : Reachable scenario :=
  Reachable.addAll _ _ _ (Reachable.new 10 true) scenario_run

theorem overflowed_run : (NewCache 10 false).Add "a" hugeValue = some overflowed := rfl

theorem overflowed_reachable : Reachable overflowed :=
  Reachable.add "a" hugeValue (Reachable.new 10 false) overflowed_run

/-- C2, the claim as stated fails: on `NewCache(10)`, `Add("a", v)` with `v.Len() = 2^63 - 1`
returns and keeps the entry. The sum of `len(key) + value.Len()` over the live entries is
`2^63`, and `nbytes`, an `int64`, has wrapped to `-2^63`. -/
theorem nbytes_wraps_around :
    Reachable overflowed ∧
    overflowed.entries = [("a", hugeValue)] ∧
    total overflowed.entries = 9223372036854775808 ∧
    overflowed.nbytes = -9223372036854775808 ∧
    overflowed.nbytes ≠ total overflowed.entries :=
  ⟨overflowed_reachable, by decide, by decide, by decide, by decide⟩

/-- C2, amended. In every state reachable from `NewCache` by calls of `Add`, `Get` and
`RemoveOldest`, `nbytes` is the sum over the live entries of `len(key) + value.Len()` as an
`int64`, that is, reduced modulo `2^64` into the range of `int64`; it is the sum itself
whenever the sum is in that range. -/
theorem nbytes_eq_wrapped_total {V : Type} [Value V] (c : Cache V) (h : Reachable c) :
    c.nbytes = int64 (total c.entries) ∧
    (-9223372036854775808 ≤ total c.entries → total c.entries < 9223372036854775808 →
      c.nbytes = total c.entries) :=
  ⟨h.wf.bytes, fun h1 h2 => h.wf.bytes.trans (int64_of_range _ h1 h2)⟩

theorem nbytes_eq_wrapped_total_witness :
    Reachable scenario ∧ scenario.nbytes = int64 (total scenario.entries) ∧
      scenario.nbytes = total scenario.entries :=
  ⟨scenario_reachable, (nbytes_eq_wrapped_total scenario scenario_reachable).1,
    (nbytes_eq_wrapped_total scenario scenario_reachable).2 (by decide) (by decide)⟩

/-- C3, the claim as stated fails: on `NewCache(10)`, `Add("a", v)` with `v.Len() = 2^63 - 1`
returns and the entry survives (`Get("a")` finds it), although its footprint `2^63` exceeds
`maxBytes = 10`: the longest prefix of the recency order whose total footprint is at most
`maxBytes` is the empty one. The counter the guard reads has wrapped to `-2^63`. -/
theorem add_keeps_wrapped_entry :
    (NewCache 10 false : Cache Sized).maxBytes = 10 ∧
    (NewCache 10 false).Add "a" hugeValue = some overflowed ∧
    ((NewCache 10 false).addEntry "a" hugeValue).entries = [("a", hugeValue)] ∧
    overflowed.entries = [("a", hugeValue)] ∧
    (overflowed.Get "a").1 = some hugeValue ∧
    (10 : Int) < total (overflowed.entries.take 1) ∧
    total (overflowed.entries.take 0) ≤ 10 ∧
    overflowed.nbytes = -9223372036854775808 :=
  ⟨rfl, overflowed_run, by decide, by decide, by decide, by decide, by decide, by decide⟩

/-- C3, amended. On a reachable cache with `maxBytes > 0`, `Add(key, value)` returns. After it
has put the entry in front of the others (in their old order), the entries that survive are
the first `j` of that recency order, where `j` is the largest number of leading entries whose
total footprint, as the `int64` counter holds it (reduced modulo `2^64`), is at most
`maxBytes`; `Get` finds exactly the survivors. When the total footprint of every prefix of
the recency order is in the range of `int64`, `j` is the largest number of leading entries
whose total footprint is at most `maxBytes`. In the scenario `maxBytes = 10`,
`Add("k1","v1")`, `Add("k2","v2")`, `Add("k3","v3")`, only `"k1"` is evicted, `Get("k1")` is
not found and `Get("k2")` returns `"v2"`. -/
theorem add_evicts_lru_end {V : Type} [Value V] (c : Cache V) (h : Reachable c)
    (hM : 0 < c.maxBytes) (key : String) (value : V) :
    (∃ c1 j, c.Add key value = some c1 ∧
      (c.addEntry key value).entries = (key, value) :: c.entries.filter (fun p => p.1 != key) ∧
      j ≤ (c.addEntry key value).entries.length ∧
      c1.entries = (c.addEntry key value).entries.take j ∧
      int64 (total ((c.addEntry key value).entries.take j)) ≤ c.maxBytes ∧
      (∀ i, j < i → i ≤ (c.addEntry key value).entries.length →
        c.maxBytes < int64 (total ((c.addEntry key value).entries.take i))) ∧
      ((∀ i, i ≤ (c.addEntry key value).entries.length →
          -9223372036854775808 ≤ total ((c.addEntry key value).entries.take i) ∧
          total ((c.addEntry key value).entries.take i) < 9223372036854775808) →
        total ((c.addEntry key value).entries.take j) ≤ c.maxBytes ∧
        ∀ i, j < i → i ≤ (c.addEntry key value).entries.length →
          c.maxBytes < total ((c.addEntry key value).entries.take i)) ∧
      ∀ k, (c1.Get k).1 = c1.entries.lookup k) ∧
    (∃ c3 : Cache String,
      addAll (NewCache 10 true) [("k1", "v1"), ("k2", "v2"), ("k3", "v3")] = some c3 ∧
      c3.entries = [("k3", "v3"), ("k2", "v2")] ∧
      c3.calls.map (fun e => e.key) = ["k1"] ∧
      (c3.Get "k1").1 = none ∧ (c3.Get "k2").1 = some "v2") := by
  constructor
  · have hwf := h.wf
    have hfit := fit_of_nonneg (c.addEntry key value) (c.addEntry key value).ll.length
      (by rw [addEntry_maxBytes]; exact le_of_lt hM)
    rw [addEntry_maxBytes] at hfit
    obtain ⟨c1, j, hrun, hwf1, hj, hll, _, _, hstop, hlong⟩ := Add_spec hwf key value hfit
    have hlen : (c.addEntry key value).entries.length = (c.addEntry key value).ll.length := by
      simp [Cache.entries]
    have hle : int64 (total ((c.addEntry key value).entries.take j)) ≤ c.maxBytes := by
      by_contra hcon
      exact hstop ⟨ne_of_gt hM, not_le.mp hcon⟩
    have hgt : ∀ i, j < i → i ≤ (c.addEntry key value).entries.length →
        c.maxBytes < int64 (total ((c.addEntry key value).entries.take i)) := by
      intro i h1 h2
      rw [hlen] at h2
      exact (hlong i h1 h2).2
    refine ⟨c1, j, hrun, (addEntry_spec hwf key value).2, ?_, ?_, hle, hgt, ?_, ?_⟩
    · rw [hlen]
      exact hj
    · rw [entries_take, ← hll]
      rfl
    · intro hrange
      constructor
      · have hr := hrange j (by rw [hlen]; exact hj)
        rw [int64_of_range _ hr.1 hr.2] at hle
        exact hle
      · intro i h1 h2
        have hr := hrange i h2
        have := hgt i h1 h2
        rw [int64_of_range _ hr.1 hr.2] at this
        exact this
    · intro k
      exact Get_eq_lookup hwf1 k
  · exact ⟨scenario, rfl, by decide, by decide, by decide, by decide⟩

theorem add_evicts_lru_end_witness :
    Reachable scenario ∧ 0 < scenario.maxBytes ∧
    ∃ c1 j, scenario.Add "k4" "value4" = some c1 ∧
      (scenario.addEntry "k4" "value4").entries
        = ("k4", "value4") :: scenario.entries.filter (fun p => p.1 != "k4") ∧
      j ≤ (scenario.addEntry "k4" "value4").entries.length ∧
      c1.entries = (scenario.addEntry "k4" "value4").entries.take j ∧
      int64 (total ((scenario.addEntry "k4" "value4").entries.take j)) ≤ scenario.maxBytes ∧
      (∀ i, j < i → i ≤ (scenario.addEntry "k4" "value4").entries.length →
        scenario.maxBytes < int64 (total ((scenario.addEntry "k4" "value4").entries.take i))) ∧
      ((∀ i, i ≤ (scenario.addEntry "k4" "value4").entries.length →
          -9223372036854775808 ≤ total ((scenario.addEntry "k4" "value4").entries.take i) ∧
          total ((scenario.addEntry "k4" "value4").entries.take i) < 9223372036854775808) →
        total ((scenario.addEntry "k4" "value4").entries.take j) ≤ scenario.maxBytes ∧
        ∀ i, j < i → i ≤ (scenario.addEntry "k4" "value4").entries.length →
          scenario.maxBytes < total ((scenario.addEntry "k4" "value4").entries.take i)) ∧
      ∀ k, (c1.Get k).1 = c1.entries.lookup k :=
  ⟨scenario_reachable, by decide,
    (add_evicts_lru_end scenario scenario_reachable (by decide) "k4" "value4").1⟩

/-- An entry that fits is not evicted by its own `Add`: the call returns and leaves
the entry in front, followed by a prefix of the other entries. -/
theorem Add_fits {V : Type} [Value V] {c : Cache V} (hwf : WF c) (k : String) (v : V)
    (hfits : c.maxBytes = 0 ∨ len k + Value.Len v ≤ c.maxBytes) :
    ∃ c1 j, c.Add k v = some c1 ∧ WF c1 ∧ c1.maxBytes = c.maxBytes ∧
      c1.entries = (k, v) :: (c.entries.filter (fun p => p.1 != k)).take j := by
  have hpre := (addEntry_spec hwf k v).2
  have hlen : 1 ≤ (c.addEntry k v).ll.length := by
    have : (c.addEntry k v).entries.length = (c.addEntry k v).ll.length := by
      simp [Cache.entries]
    rw [← this, hpre]
    simp
  have hone : total ((c.addEntry k v).entries.take 1) = len k + Value.Len v := by
    rw [hpre]
    simp [total, footprint]
  have hwrap : c.maxBytes = 0 ∨ int64 (len k + Value.Len v) ≤ c.maxBytes := by
    rcases hfits with h0 | h1
    · exact Or.inl h0
    · have hk : (0 : Int) ≤ len k := Int.ofNat_nonneg _
      have hv := Value.Len_min v
      exact Or.inr (int64_le_of_le _ _ (by omega) h1)
  have hfit : ∃ j, j ≤ (c.addEntry k v).ll.length ∧
      ¬ (c.maxBytes ≠ 0 ∧ c.maxBytes < int64 (total ((c.addEntry k v).entries.take j))) := by
    refine ⟨1, hlen, ?_⟩
    rw [hone]
    rcases hwrap with h0 | h1
    · exact fun hg => hg.1 h0
    · exact fun hg => absurd h1 (not_le.mpr hg.2)
  obtain ⟨c1, j, hrun, hwf1, _, hll, hmax, _, _, hlong⟩ := Add_spec hwf k v hfit
  have hj : 1 ≤ j := by
    by_contra hcon
    have hj0 : j < 1 := not_le.mp hcon
    have := hlong 1 hj0 hlen
    rw [hone] at this
    rcases hwrap with h0 | h1
    · exact this.1 h0
    · exact absurd h1 (not_le.mpr this.2)
  have hent : c1.entries = (c.addEntry k v).entries.take j := by
    rw [entries_take, ← hll]
    rfl
  obtain ⟨j1, rfl⟩ : ∃ j1, j = j1 + 1 := ⟨j - 1, by omega⟩
  refine ⟨c1, j1, hrun, hwf1, hmax, ?_⟩
  rw [hent, hpre]
  rfl

/-- C5. On a reachable cache, when `maxBytes = 0` or `len(k) + v.Len() <= maxBytes`,
`Add(k, v)` returns and `Get(k)` right after it returns `(v, true)`, whether `k` was live
before or not. No assumption on the sign of `Len` is needed. -/
theorem add_then_get {V : Type} [Value V] (c : Cache V) (h : Reachable c) (k : String) (v : V)
    (hfits : c.maxBytes = 0 ∨ len k + Value.Len v ≤ c.maxBytes) :
    ∃ c1, c.Add k v = some c1 ∧ (c1.Get k).1 = some v := by
  obtain ⟨c1, j, hrun, hwf1, _, hent⟩ := Add_fits h.wf k v hfits
  refine ⟨c1, hrun, ?_⟩
  rw [Get_eq_lookup hwf1 k, hent]
  simp [List.lookup]

theorem add_then_get_witness :
    Reachable scenario ∧ (scenario.maxBytes = 0 ∨ len "k2" + Value.Len "w" ≤ scenario.maxBytes) ∧
    ∃ c1, scenario.Add "k2" "w" = some c1 ∧ (c1.Get "k2").1 = some "w" :=
  ⟨scenario_reachable, Or.inr (by decide),
    add_then_get scenario scenario_reachable "k2" "w" (Or.inr (by decide))⟩

/-- A hit of `Get` in terms of the entries: the value listed for the key is returned and
its entry moves to the front, the others keeping their order. -/
theorem Get_live {V : Type} [Value V] {c : Cache V} (h : WF c) {k : String} {v : V}
    (hk : (k, v) ∈ c.entries) :
    (c.Get k).1 = some v ∧
    (c.Get k).2.entries = (k, v) :: c.entries.filter (fun p => p.1 != k) ∧
    (c.Get k).2.maxBytes = c.maxBytes ∧ (c.Get k).2.nbytes = c.nbytes ∧
    (c.Get k).2.calls = c.calls := by
  obtain ⟨x, hx, hxe⟩ := List.mem_map.mp hk
  have hxk : x.Value.key = k := congrArg Prod.fst hxe
  have hxv : x.Value.value = v := congrArg Prod.snd hxe
  have hi : c.index k = some x.addr := by
    rw [← hxk]
    exact h.indexed x hx
  obtain ⟨as, e, bs, hl, hea, hek, has, hbs, hg⟩ := Get_hit h hi
  have hxe1 : x = e := by
    rw [hl] at hx
    rcases List.mem_append.mp hx with h1 | h1
    · exact absurd hxk (has x h1).2
    · rcases List.mem_cons.mp h1 with h2 | h2
      · exact h2
      · exact absurd hxk (hbs x h2).2
  rw [hg]
  refine ⟨?_, ?_, rfl, rfl, rfl⟩
  · show some e.Value.value = some v
    rw [← hxe1, hxv]
  · show (e :: (as ++ bs)).map (fun e => (e.Value.key, e.Value.value))
      = (k, v) :: c.entries.filter (fun p => p.1 != k)
    unfold Cache.entries
    rw [hl, filter_split as bs e k hek (fun y hy => (has y hy).2) (fun y hy => (hbs y hy).2),
      List.map_cons, ← hxe1, hxk, hxv]

theorem addAll_cons_some {V : Type} [Value V] {c c2 : Cache V} {k : String} {v : V}
    {rest : List (String × V)} (h : addAll c ((k, v) :: rest) = some c2) :
    ∃ c1, c.Add k v = some c1 ∧ addAll c1 rest = some c2 := by
  unfold addAll at h
  split at h
  · rename_i c1 hadd
    exact ⟨c1, hadd, h⟩
  · exact Option.noConfusion h

/-- Three distinct keys added to a new cache that holds all three afterwards: the recency
order is the reverse of the order of the calls. -/
theorem three_adds {V : Type} [Value V] (M : Int) (onEvicted : Bool) (a b d : String)
    (va vb vd : V) (c3 : Cache V) (hab : a ≠ b) (had : a ≠ d) (hbd : b ≠ d)
    (hrun : addAll (NewCache M onEvicted) [(a, va), (b, vb), (d, vd)] = some c3)
    (ha : a ∈ c3.keys) (hb : b ∈ c3.keys) :
    WF c3 ∧ c3.maxBytes = M ∧ c3.entries = [(d, vd), (b, vb), (a, va)] := by
  obtain ⟨c1, hadd1, hrun1⟩ := addAll_cons_some hrun
  obtain ⟨c2, hadd2, hrun2⟩ := addAll_cons_some hrun1
  obtain ⟨c4, hadd3, hrun3⟩ := addAll_cons_some hrun2
  have h34 : c4 = c3 := Option.some.inj hrun3
  subst h34
  obtain ⟨hwf1, hm1, _, j1, he1⟩ := Add_take (WF.new M onEvicted) hadd1
  obtain ⟨hwf2, hm2, _, j2, he2⟩ := Add_take hwf1 hadd2
  obtain ⟨hwf3, hm3, _, j3, he3⟩ := Add_take hwf2 hadd3
  refine ⟨hwf3, by rw [hm3, hm2, hm1]; rfl, ?_⟩
  have hba : b ≠ a := fun h => hab h.symm
  have hda : d ≠ a := fun h => had h.symm
  have hdb : d ≠ b := fun h => hbd h.symm
  have hka : a ∈ c4.entries.map Prod.fst := by
    simpa [Cache.keys, Cache.entries] using ha
  have hkb : b ∈ c4.entries.map Prod.fst := by
    simpa [Cache.keys, Cache.entries] using hb
  have e0 : (NewCache M onEvicted : Cache V).entries = [] := rfl
  rw [e0] at he1
  rw [he3, he2, he1] at hka hkb
  rw [he3, he2, he1]
  rcases j1 with _ | j1 <;> rcases j2 with _ | _ | j2 <;> rcases j3 with _ | _ | _ | j3 <;>
    simp [hab, had, hbd, hba, hda, hdb] at hka hkb ⊢

/-- C4. A `Get` hit on a live key `k` of a reachable cache returns its value and moves its
entry to the front, the other entries keeping their relative order. For distinct keys `a`,
`b`, `d` added in that order to a new cache that holds all three, after `Get(a)` the recency
order is `a, d, b`: `RemoveOldest` removes `b` and leaves `a` and `d`, and an `Add` of a
fourth key leaves a prefix of `e, a, d, b`, so that `b` is the first entry it evicts. Such an
`Add` returns when `maxBytes >= 0`. -/
theorem get_promotes {V : Type} [Value V] (c : Cache V) (k : String) (v : V)
    (M : Int) (onEvicted : Bool) (a b d e : String) (va vb vd ve : V) (c3 : Cache V)
    (hc : Reachable c) (hk : (k, v) ∈ c.entries)
    (hab : a ≠ b) (had : a ≠ d) (hbd : b ≠ d) (hea : e ≠ a) (heb : e ≠ b) (hed : e ≠ d)
    (hrun : addAll (NewCache M onEvicted) [(a, va), (b, vb), (d, vd)] = some c3)
    (hall : a ∈ c3.keys ∧ b ∈ c3.keys ∧ d ∈ c3.keys) :
    ((c.Get k).1 = some v ∧
      (c.Get k).2.entries = (k, v) :: c.entries.filter (fun p => p.1 != k)) ∧
    c3.entries = [(d, vd), (b, vb), (a, va)] ∧
    (c3.Get a).1 = some va ∧
    (c3.Get a).2.entries = [(a, va), (d, vd), (b, vb)] ∧
    (c3.Get a).2.RemoveOldest.entries = [(a, va), (d, vd)] ∧
    (∀ c5, (c3.Get a).2.Add e ve = some c5 →
      ∃ j, c5.entries = [(e, ve), (a, va), (d, vd), (b, vb)].take j) ∧
    (0 ≤ M → ∃ c5, (c3.Get a).2.Add e ve = some c5) := by
  obtain ⟨hwf3, hm3, he3⟩ := three_adds M onEvicted a b d va vb vd c3 hab had hbd hrun
    hall.1 hall.2.1
  have hba : b ≠ a := fun h => hab h.symm
  have hda : d ≠ a := fun h => had h.symm
  have hmem : (a, va) ∈ c3.entries := by rw [he3]; simp
  obtain ⟨hg1, hg2, hg3, _, _⟩ := Get_live hwf3 hmem
  have hwf4 : WF (c3.Get a).2 := hwf3.get a
  have he4 : (c3.Get a).2.entries = [(a, va), (d, vd), (b, vb)] := by
    rw [hg2, he3]
    simp [hba, hda]
  refine ⟨⟨(Get_live hc.wf hk).1, (Get_live hc.wf hk).2.1⟩, he3, hg1, he4, ?_, ?_, ?_⟩
  · rw [RemoveOldest_entries, he4]
    rfl
  · intro c5 hadd
    obtain ⟨_, _, _, j, hj⟩ := Add_take hwf4 hadd
    refine ⟨j, ?_⟩
    rw [hj, he4]
    have h1 : a ≠ e := fun h => hea h.symm
    have h2 : b ≠ e := fun h => heb h.symm
    have h3 : d ≠ e := fun h => hed h.symm
    simp [h1, h2, h3]
  · intro hM
    obtain ⟨c5, hadd, _⟩ := Add_returns hwf4 (by rw [hg3, hm3]; exact hM) e ve
    exact ⟨c5, hadd⟩

theorem threeKeys_run :
    addAll (NewCache 12 false) [("a", "1"), ("b", "2"), ("c", "3")] = some threeKeys := rfl

theorem get_promotes_witness :
    (Reachable scenario ∧ ("k2", "v2") ∈ scenario.entries ∧
      addAll (NewCache 12 false) [("a", "1"), ("b", "2"), ("c", "3")] = some threeKeys ∧
      "a" ∈ threeKeys.keys ∧ "b" ∈ threeKeys.keys ∧ "c" ∈ threeKeys.keys) ∧
    ((scenario.Get "k2").1 = some "v2" ∧
      (scenario.Get "k2").2.entries
        = ("k2", "v2") :: scenario.entries.filter (fun p => p.1 != "k2")) ∧
    threeKeys.entries = [("c", "3"), ("b", "2"), ("a", "1")] ∧
    (threeKeys.Get "a").1 = some "1" ∧
    (threeKeys.Get "a").2.entries = [("a", "1"), ("c", "3"), ("b", "2")] ∧
    (threeKeys.Get "a").2.RemoveOldest.entries = [("a", "1"), ("c", "3")] ∧
    (∀ c5, (threeKeys.Get "a").2.Add "e" "12345" = some c5 →
      ∃ j, c5.entries = [("e", "12345"), ("a", "1"), ("c", "3"), ("b", "2")].take j) ∧
    ((0 : Int) ≤ 12 → ∃ c5, (threeKeys.Get "a").2.Add "e" "12345" = some c5) :=
  ⟨⟨scenario_reachable, by decide, threeKeys_run, by decide, by decide, by decide⟩,
    get_promotes scenario "k2" "v2" 12 false "a" "b" "c" "e" "1" "2" "3" "12345" threeKeys
      scenario_reachable (by decide) (by decide) (by decide) (by decide) (by decide) (by decide)
      (by decide) threeKeys_run ⟨by decide, by decide, by decide⟩⟩

/-- The element, and so the value, listed for a key is unique. -/
theorem WF.value_unique {V : Type} [Value V] {c : Cache V} (h : WF c) {k : String} {v w : V}
    (hv : (k, v) ∈ c.entries) (hw : (k, w) ∈ c.entries) : v = w := by
  have h1 := (Get_live h hv).1
  have h2 := (Get_live h hw).1
  rw [h1] at h2
  exact Option.some.inj h2

/-- The update branch of `Add` changes the byte counter by the difference of the lengths
of the new and the old value, in `int64` arithmetic. -/
theorem addEntry_update_nbytes {V : Type} [Value V] {c : Cache V} (h : WF c) {k : String}
    {v1 : V} (v2 : V) (hk : (k, v1) ∈ c.entries) :
    (c.addEntry k v2).nbytes = int64 (c.nbytes + (Value.Len v2 - Value.Len v1)) := by
  obtain ⟨x, hx, hxe⟩ := List.mem_map.mp hk
  have hxk : x.Value.key = k := congrArg Prod.fst hxe
  have hi : c.index k = some x.addr := by
    rw [← hxk]
    exact h.indexed x hx
  obtain ⟨as, e, bs, hl, _, hek, _, _, hdef⟩ := addEntry_hit h v2 hi
  have hmem : (k, e.Value.value) ∈ c.entries := by
    unfold Cache.entries
    rw [hl]
    simp [hek]
  have hv : e.Value.value = v1 := h.value_unique hmem hk
  rw [hdef, hv]
  show int64 (c.nbytes + int64 (int64 (Value.Len v2) - int64 (Value.Len v1))) = _
  unfold int64
  omega

/-- C6, the claim as stated fails. With `maxBytes = 4`, `Add("k","v1")` leaves the entry of
`"k"`, and `Add("k","value2")`, whose footprint 7 exceeds `maxBytes`, evicts the entry it
has just updated: no entry for `"k"` is left. And on `NewCache(0)`, after `Add("k", v1)` with
`v1.Len() = 0` and `Add("k", v2)` with `v2.Len() = 2^63 - 1`, the one entry holds `v2` but
`nbytes`, an `int64`, is `-2^63`, not `len("k") + v2.Len() = 2^63`. -/
theorem add_twice_oversized :
    (∃ c1 c2 : Cache String,
      (NewCache 4 false).Add "k" "v1" = some c1 ∧ c1.entries = [("k", "v1")] ∧
      c1.Add "k" "value2" = some c2 ∧ c2.entries = [] ∧ (c2.Get "k").1 = none ∧
      c2.nbytes = 0) ∧
    (∃ c1 c2 : Cache Sized,
      (NewCache 0 false).Add "k" { tag := 1, size := 0 } = some c1 ∧
      c1.Add "k" hugeValue = some c2 ∧ c2.entries = [("k", hugeValue)] ∧
      len "k" + Value.Len hugeValue = 9223372036854775808 ∧
      c2.nbytes = -9223372036854775808) :=
  ⟨⟨(NewCache 4 false).addEntry "k" "v1",
    (((NewCache 4 false).addEntry "k" "v1").addEntry "k" "value2").RemoveOldest,
    rfl, by decide, rfl, by decide, by decide, by decide⟩,
   ⟨(NewCache 0 false).addEntry "k" { tag := 1, size := 0 },
    ((NewCache 0 false).addEntry "k" { tag := 1, size := 0 }).addEntry "k" hugeValue,
    rfl, by unfold Cache.Add; rfl, by decide, by decide, by decide⟩⟩

/-- C6, amended. On a reachable cache, if `Add(k, v1)` returns and the entry `(k, v2)` fits
(`maxBytes = 0` or `len(k) + v2.Len() <= maxBytes`), then `Add(k, v2)` returns and leaves
exactly one entry for `k`, holding `v2`, in front; `nbytes` is the total footprint of the
entries left, in which `len(k)` is counted once, as an `int64` (reduced modulo `2^64`). On a
cache that was empty before the two calls, `nbytes` is `len(k) + v2.Len()` as an `int64`, and
is `len(k) + v2.Len()` itself when that is below `2^63`. When the first call left `k` live,
the update step of the second call changes `nbytes` by `v2.Len() - v1.Len()` in `int64`
arithmetic. -/
theorem add_twice_updates {V : Type} [Value V] (c c1 : Cache V) (k : String) (v1 v2 : V)
    (h : Reachable c) (hadd : c.Add k v1 = some c1)
    (hfits : c.maxBytes = 0 ∨ len k + Value.Len v2 ≤ c.maxBytes) :
    ∃ c2, c1.Add k v2 = some c2 ∧
      c2.entries.filter (fun p => p.1 == k) = [(k, v2)] ∧
      c2.entries.head? = some (k, v2) ∧
      (c2.Get k).1 = some v2 ∧
      c2.nbytes = int64 (total c2.entries) ∧
      (c.entries = [] → c2.entries = [(k, v2)] ∧
        c2.nbytes = int64 (len k + Value.Len v2) ∧
        (len k + Value.Len v2 < 9223372036854775808 → c2.nbytes = len k + Value.Len v2)) ∧
      ((k, v1) ∈ c1.entries →
        (c1.addEntry k v2).nbytes = int64 (c1.nbytes + (Value.Len v2 - Value.Len v1))) := by
  obtain ⟨hwf1, hm1, _, j1, he1⟩ := Add_take h.wf hadd
  obtain ⟨c2, j, hrun, hwf2, _, hent⟩ := Add_fits hwf1 k v2 (by rw [hm1]; exact hfits)
  have hrest : ∀ p ∈ (c1.entries.filter (fun p => p.1 != k)).take j, (p.1 == k) = false := by
    intro p hp
    have := List.mem_filter.mp (List.mem_of_mem_take hp)
    simpa using this.2
  refine ⟨c2, hrun, ?_, ?_, ?_, hwf2.bytes, ?_, ?_⟩
  · rw [hent, List.filter_cons]
    simp only [beq_self_eq_true, if_true]
    congr 1
    apply List.filter_eq_nil_iff.mpr
    intro p hp
    simp [hrest p hp]
  · rw [hent]
    rfl
  · rw [Get_eq_lookup hwf2 k, hent]
    simp [List.lookup]
  · intro hempty
    have hnil : c1.entries.filter (fun p => p.1 != k) = [] := by
      rw [he1, hempty]
      rcases j1 with _ | j1 <;> simp
    have he2 : c2.entries = [(k, v2)] := by
      rw [hent, hnil]
      simp
    have hb : c2.nbytes = int64 (len k + Value.Len v2) := by
      rw [hwf2.bytes, he2]
      simp [total, footprint]
    refine ⟨he2, hb, ?_⟩
    intro hlt
    have hk : (0 : Int) ≤ len k := Int.ofNat_nonneg _
    have hv := Value.Len_min v2
    rw [hb]
    exact int64_of_range _ (by omega) hlt
  · intro hk
    exact addEntry_update_nbytes hwf1 v2 hk

theorem add_twice_updates_witness :
    (Reachable scenario ∧ scenario.Add "k2" "v1" = some (scenario.addEntry "k2" "v1") ∧
      (scenario.maxBytes = 0 ∨ len "k2" + Value.Len "value2" ≤ scenario.maxBytes)) ∧
    ∃ c2, (scenario.addEntry "k2" "v1").Add "k2" "value2" = some c2 ∧
      c2.entries.filter (fun p => p.1 == "k2") = [("k2", "value2")] ∧
      c2.entries.head? = some ("k2", "value2") ∧
      (c2.Get "k2").1 = some "value2" ∧
      c2.nbytes = int64 (total c2.entries) ∧
      (scenario.entries = [] → c2.entries = [("k2", "value2")] ∧
        c2.nbytes = int64 (len "k2" + Value.Len "value2") ∧
        (len "k2" + Value.Len "value2" < 9223372036854775808 →
          c2.nbytes = len "k2" + Value.Len "value2")) ∧
      (("k2", "v1") ∈ (scenario.addEntry "k2" "v1").entries →
        ((scenario.addEntry "k2" "v1").addEntry "k2" "value2").nbytes
          = int64 ((scenario.addEntry "k2" "v1").nbytes
              + (Value.Len "value2" - Value.Len "v1"))) :=
  ⟨⟨scenario_reachable, rfl, Or.inr (by decide)⟩,
    add_twice_updates scenario (scenario.addEntry "k2" "v1") "k2" "v1" "value2"
      scenario_reachable rfl (Or.inr (by decide))⟩

/-! ### Unbounded mode -/

theorem lookup_filter_ne {V : Type} (l : List (String × V)) {k k1 : String} (h : k1 ≠ k) :
    (l.filter (fun q => q.1 != k1)).lookup k = l.lookup k := by
  induction l with
  | nil => rfl
  | cons p rest ih =>
    obtain ⟨kp, vp⟩ := p
    by_cases hp : kp = k1
    · subst hp
      have hkp : (k == kp) = false := by simpa using fun h1 => h h1.symm
      simp [List.filter_cons, List.lookup, ih, hkp]
    · have hne : (kp != k1) = true := by simpa using hp
      simp only [List.filter_cons, hne, if_true, List.lookup, ih]

theorem lookup_upsert {V : Type} (l : List (String × V)) (k1 k : String) (v : V) :
    (upsert l (k1, v)).lookup k = if k1 = k then some v else l.lookup k := by
  unfold upsert
  by_cases h : k1 = k
  · simp [List.lookup, h]
  · have hk : (k == k1) = false := by simpa using fun h1 => h h1.symm
    simp only [List.lookup, hk, if_neg h]
    exact lookup_filter_ne l h

theorem lookup_foldl_upsert {V : Type} (ops : List (String × V)) :
    ∀ (l : List (String × V)) (k : String),
      (ops.foldl upsert l).lookup k =
        match latest ops k with
        | some w => some w
        | none => l.lookup k := by
  induction ops with
  | nil =>
    intro l k
    rfl
  | cons op rest ih =>
    intro l k
    obtain ⟨k1, v⟩ := op
    rw [List.foldl_cons, ih, lookup_upsert]
    simp only [latest]
    cases latest rest k with
    | some w => rfl
    | none =>
      by_cases h : k1 = k
      · simp [h]
      · simp [h]

theorem mem_keys_upsert {V : Type} (l : List (String × V)) (p : String × V) (k : String) :
    k ∈ (upsert l p).map Prod.fst ↔ k = p.1 ∨ k ∈ l.map Prod.fst := by
  unfold upsert
  simp only [List.map_cons, List.mem_cons, List.mem_map, List.mem_filter]
  constructor
  · rintro (h | ⟨q, ⟨hq, _⟩, rfl⟩)
    · exact Or.inl h
    · exact Or.inr ⟨q, hq, rfl⟩
  · rintro (h | ⟨q, hq, rfl⟩)
    · exact Or.inl h
    · by_cases hqp : q.1 = p.1
      · exact Or.inl hqp
      · exact Or.inr ⟨q, ⟨hq, by simpa using hqp⟩, rfl⟩

theorem mem_keys_foldl_upsert {V : Type} (ops : List (String × V)) :
    ∀ (l : List (String × V)) (k : String),
      k ∈ (ops.foldl upsert l).map Prod.fst ↔ k ∈ l.map Prod.fst ∨ k ∈ ops.map Prod.fst := by
  induction ops with
  | nil =>
    intro l k
    simp
  | cons op rest ih =>
    intro l k
    rw [List.foldl_cons, ih, mem_keys_upsert]
    simp only [List.map_cons, List.mem_cons]
    tauto

/-- The keys of a well-formed cache are pairwise distinct. -/
theorem WF.keys_nodup {V : Type} [Value V] {c : Cache V} (h : WF c) : c.keys.Nodup := by
  unfold Cache.keys
  apply List.Nodup.map_on
  · intro x hx y hy hxy
    exact List.inj_on_of_nodup_map h.nodup hx hy (h.key_inj hx hy hxy)
  · exact List.Nodup.of_map _ h.nodup

/-- With `maxBytes = 0` every `Add` is only its insert-or-update step. -/
theorem addAll_unbounded {V : Type} [Value V] (ops : List (String × V)) :
    ∀ (c : Cache V), WF c → c.maxBytes = 0 →
      ∃ c1, addAll c ops = some c1 ∧ WF c1 ∧ c1.entries = ops.foldl upsert c.entries ∧
        c1.calls = c.calls := by
  induction ops with
  | nil =>
    intro c h _
    exact ⟨c, rfl, h, rfl, rfl⟩
  | cons op rest ih =>
    intro c h hM
    obtain ⟨k, v⟩ := op
    have hadd : c.Add k v = some (c.addEntry k v) :=
      evictLoop_unbounded _ _ (by rw [addEntry_maxBytes]; exact hM)
    obtain ⟨hwf, hent⟩ := addEntry_spec h k v
    obtain ⟨c1, hrun, hwf1, he1, hc1⟩ := ih (c.addEntry k v) hwf
      (by rw [addEntry_maxBytes]; exact hM)
    refine ⟨c1, ?_, hwf1, ?_, ?_⟩
    · show (match c.Add k v with
        | some c1 => addAll c1 rest
        | none => none) = some c1
      rw [hadd]
      exact hrun
    · rw [he1, hent]
      rfl
    · rw [hc1, addEntry_calls]

/-- C7. For a cache built with `maxBytes = 0`, every sequence of `Add` calls returns and
evicts nothing: `Get` finds every key that was added, with the value of its latest `Add`
(and no other key), `Len()` is the number of distinct keys added, and `onEvicted` has not
been called. -/
theorem unbounded_never_evicts {V : Type} [Value V] (onEvicted : Bool)
    (ops : List (String × V)) :
    ∃ c, addAll (NewCache 0 onEvicted) ops = some c ∧
      (∀ k, (c.Get k).1 = latest ops k) ∧
      c.Len = ((ops.map Prod.fst).dedup.length : Int) ∧
      c.calls = [] := by
  obtain ⟨c, hrun, hwf, hent, hcalls⟩ :=
    addAll_unbounded ops (NewCache 0 onEvicted) (WF.new 0 onEvicted) rfl
  have e0 : (NewCache 0 onEvicted : Cache V).entries = [] := rfl
  rw [e0] at hent
  refine ⟨c, hrun, ?_, ?_, hcalls⟩
  · intro k
    rw [Get_eq_lookup hwf k, hent, lookup_foldl_upsert]
    cases latest ops k <;> rfl
  · have hkeys : c.keys = c.entries.map Prod.fst := by
      simp [Cache.keys, Cache.entries]
    have hperm : c.keys.Perm (ops.map Prod.fst).dedup := by
      apply (List.perm_ext_iff_of_nodup hwf.keys_nodup (List.nodup_dedup _)).mpr
      intro k
      rw [hkeys, hent, mem_keys_foldl_upsert, List.mem_dedup]
      simp
    have hlen : c.ll.length = c.keys.length := by simp [Cache.keys]
    unfold Cache.Len
    rw [hlen, hperm.length_eq]

/-! ### The eviction callback -/

/-- The call of `onEvicted` made by `RemoveOldest` on a list that ends with `e`: it comes
after the removal from the list and the index and after the update of the byte counter. -/
theorem RemoveOldest_calls {V : Type} [Value V] (c : Cache V) (init : List (Element V))
    (e : Element V) (hl : c.ll = init ++ [e]) :
    c.RemoveOldest.calls =
      if c.onEvicted then
        c.calls ++ [{ key := e.Value.key, value := e.Value.value, ll := init, indexed := false,
                      nbytes := int64 (c.nbytes - int64 (int64 (len e.Value.key) + int64 (Value.Len e.Value.value))) }]
      else c.calls := by
  have hlast : c.ll.getLast? = some e := by rw [hl]; simp
  have hdrop : c.ll.dropLast = init := by rw [hl]; simp
  unfold Cache.RemoveOldest
  rw [hlast]
  simp [hdrop]

theorem RemoveOldest_nbytes {V : Type} [Value V] (c : Cache V) (init : List (Element V))
    (e : Element V) (hl : c.ll = init ++ [e]) :
    c.RemoveOldest.nbytes = int64 (c.nbytes - int64 (int64 (len e.Value.key) + int64 (Value.Len e.Value.value))) := by
  have hlast : c.ll.getLast? = some e := by rw [hl]; simp
  unfold Cache.RemoveOldest
  rw [hlast]

/-- The calls of `onEvicted` made by the loop: one for each entry removed, the least
recently used first, each made when the entry is out of the list and of the index and
its footprint is out of the byte counter. -/
theorem evictLoop_calls {V : Type} [Value V] (n : Nat) :
    ∀ (c c1 : Cache V), WF c → c.ll.length = n → Cache.evictLoop n c = some c1 →
      ∃ j new, j ≤ n ∧ c1.ll = c.ll.take j ∧ c1.calls = c.calls ++ new ∧
        (c.onEvicted = true →
          new.map (fun ev => (ev.key, ev.value)) = (c.entries.drop j).reverse) ∧
        (c.onEvicted = false → new = []) ∧
        ∀ ev ∈ new, ev.indexed = false ∧ ev.key ∉ ev.ll.map (fun e => e.Value.key) ∧
          ev.nbytes = int64 (total (ev.ll.map (fun e => (e.Value.key, e.Value.value)))) ∧
          ∃ i, j ≤ i ∧ ev.ll = c.ll.take i ∧
            c.entries.take (i + 1)
              = ev.ll.map (fun e => (e.Value.key, e.Value.value)) ++ [(ev.key, ev.value)] := by
  induction n with
  | zero =>
    intro c c1 h hn hrun
    unfold Cache.evictLoop at hrun
    split at hrun
    · exact Option.noConfusion hrun
    · rw [← Option.some.inj hrun]
      refine ⟨0, [], le_refl _, ?_, by simp, ?_, fun _ => rfl, ?_⟩
      · rw [List.length_eq_zero.mp hn]
        rfl
      · intro _
        have : c.entries = [] := by simp [Cache.entries, List.length_eq_zero.mp hn]
        simp [this]
      · intro ev hev
        exact absurd hev (List.not_mem_nil ev)
  | succ n ih =>
    intro c c1 h hn hrun
    unfold Cache.evictLoop at hrun
    split at hrun
    · obtain ⟨e, hlast⟩ : ∃ e, c.ll.getLast? = some e := by
        cases hl : c.ll.getLast? with
        | none =>
          have := List.getLast?_eq_none_iff.mp hl
          rw [this] at hn
          exact absurd hn (by simp)
        | some e => exact ⟨e, rfl⟩
      have hsplit : c.ll = c.ll.dropLast ++ [e] := (List.dropLast_append_getLast? e hlast).symm
      have hlen : c.RemoveOldest.ll.length = n := by
        rw [RemoveOldest_ll, List.length_dropLast, hn]
        rfl
      have hdl : c.ll.dropLast.length = n := by
        rw [List.length_dropLast, hn]
        rfl
      obtain ⟨j, new, hj, hll, hcalls, hmap, hoff, hevs⟩ :=
        ih c.RemoveOldest c1 h.removeOldest hlen hrun
      have hwf1 := h.removeOldest
      have htake : ∀ i, i ≤ n → c.ll.dropLast.take i = c.ll.take i := by
        intro i hi
        rw [List.dropLast_eq_take, List.take_take, hn]
        congr 1
        omega
      have hkeys := h.keys_nodup
      unfold Cache.keys at hkeys
      rw [hsplit, List.map_append, List.map_cons, List.map_nil] at hkeys
      have hnotin : e.Value.key ∉ c.ll.dropLast.map (fun e => e.Value.key) := by
        intro hmem
        exact (List.nodup_append.mp hkeys).2.2 hmem (List.mem_singleton.mpr rfl)
      have hent : c.entries = c.entries.dropLast ++ [(e.Value.key, e.Value.value)] := by
        unfold Cache.entries
        rw [← List.map_dropLast]
        conv_lhs => rw [hsplit]
        simp
      have hentlen : c.entries.length = n + 1 := by simp [Cache.entries, hn]
      have htakee : ∀ i, i ≤ n → c.RemoveOldest.entries.take i = c.entries.take i := by
        intro i hi
        rw [RemoveOldest_entries, List.dropLast_eq_take, List.take_take, hentlen]
        congr 1
        omega
      cases hon : c.onEvicted with
      | false =>
        have hc : c.RemoveOldest.calls = c.calls := by
          rw [RemoveOldest_calls c _ e hsplit, hon]
          rfl
        have hnew : new = [] := hoff (by rw [RemoveOldest_onEvicted, hon])
        refine ⟨j, [], Nat.le_succ_of_le hj, ?_, ?_, fun h => Bool.noConfusion h,
          fun _ => rfl, ?_⟩
        · rw [hll, RemoveOldest_ll, htake j hj]
        · rw [hcalls, hc, hnew]
        · intro ev hev
          exact absurd hev (List.not_mem_nil ev)
      | true =>
        have hc : c.RemoveOldest.calls = c.calls ++
            [{ key := e.Value.key, value := e.Value.value, ll := c.ll.dropLast, indexed := false,
               nbytes := int64 (c.nbytes - int64 (int64 (len e.Value.key) + int64 (Value.Len e.Value.value))) }] := by
          rw [RemoveOldest_calls c _ e hsplit, hon]
          rfl
        refine ⟨j, Eviction.mk e.Value.key e.Value.value c.ll.dropLast false
            (int64 (c.nbytes - int64 (int64 (len e.Value.key) + int64 (Value.Len e.Value.value)))) :: new,
          Nat.le_succ_of_le hj, ?_, ?_, ?_, fun h => Bool.noConfusion h, ?_⟩
        · rw [hll, RemoveOldest_ll, htake j hj]
        · rw [hcalls, hc, List.append_assoc]
          rfl
        · intro _
          have hm := hmap (by rw [RemoveOldest_onEvicted, hon])
          rw [List.map_cons, hm, RemoveOldest_entries]
          have hjl : j ≤ c.entries.dropLast.length := by
            rw [List.length_dropLast, hentlen]
            exact hj
          conv_rhs => rw [hent, List.drop_append_of_le_length hjl]
          simp
        · intro ev hev
          rcases List.mem_cons.mp hev with h1 | h1
          · subst h1
            refine ⟨rfl, hnotin, ?_, n, hj, ?_, ?_⟩
            · show int64 (c.nbytes - int64 (int64 (len e.Value.key) + int64 (Value.Len e.Value.value)))
                = int64 (total (c.ll.dropLast.map (fun e => (e.Value.key, e.Value.value))))
              have := hwf1.bytes
              rw [RemoveOldest_nbytes c _ e hsplit] at this
              rw [this]
              unfold Cache.entries
              rw [RemoveOldest_ll]
            · show c.ll.dropLast = c.ll.take n
              rw [List.dropLast_eq_take, hn]
              rfl
            · show c.entries.take (n + 1)
                = c.ll.dropLast.map (fun e => (e.Value.key, e.Value.value))
                  ++ [(e.Value.key, e.Value.value)]
              rw [List.take_of_length_le (by rw [hentlen]), List.map_dropLast]
              exact hent
          · obtain ⟨k1, k2, k3, i, hi1, hi2, hi3⟩ := hevs ev h1
            have hin : i < n := by
              have hl3 := congrArg List.length hi3
              have hrl : c.RemoveOldest.entries.length = n := by
                simp [Cache.entries, hlen]
              rw [hi2] at hl3
              simp only [List.length_take, List.length_append, List.length_map,
                List.length_singleton, hrl, hlen] at hl3
              omega
            refine ⟨k1, k2, k3, i, hi1, ?_, ?_⟩
            · rw [hi2, RemoveOldest_ll, htake i (le_of_lt hin)]
            · rw [← htakee (i + 1) hin]
              exact hi3
    · rw [← Option.some.inj hrun]
      refine ⟨n + 1, [], le_refl _, ?_, by simp, ?_, fun _ => rfl, ?_⟩
      · rw [List.take_of_length_le (by rw [hn])]
      · intro _
        have : c.entries.length = n + 1 := by simp [Cache.entries, hn]
        rw [List.drop_of_length_le (by rw [this])]
        rfl
      · intro ev hev
        exact absurd hev (List.not_mem_nil ev)

/-- C15. On a reachable cache with an `onEvicted` callback, the calls that `Add` makes to
it are: one for each entry that this `Add` removes (the entries of the recency order built by
the insert-or-update step that are not in the result), the least recently used first, with
the key and the value of that entry; each call is made when the entry is out of the list, the
key is out of the index and the footprint of the entry is out of `nbytes`, which is the total
footprint of the entries left as an `int64` (reduced modulo `2^64`). No call is made when no
entry is removed. Such an `Add` returns when `maxBytes >= 0`. -/
theorem add_calls_onEvicted {V : Type} [Value V] (c : Cache V) (k : String) (v : V)
    (h : Reachable c) (hcb : c.onEvicted = true) :
    (0 ≤ c.maxBytes → ∃ c1, c.Add k v = some c1) ∧
    ∀ c1, c.Add k v = some c1 →
      ∃ j new, c1.entries = (c.addEntry k v).entries.take j ∧
        c1.calls = c.calls ++ new ∧
        new.map (fun ev => (ev.key, ev.value)) = ((c.addEntry k v).entries.drop j).reverse ∧
        (∀ ev ∈ new, ev.indexed = false ∧ ev.key ∉ ev.ll.map (fun e => e.Value.key) ∧
          ev.nbytes = int64 (total (ev.ll.map (fun e => (e.Value.key, e.Value.value)))) ∧
          ∃ i, j ≤ i ∧ ev.ll = (c.addEntry k v).ll.take i ∧
            (c.addEntry k v).entries.take (i + 1)
              = ev.ll.map (fun e => (e.Value.key, e.Value.value)) ++ [(ev.key, ev.value)]) ∧
        (c1.entries.length = (c.addEntry k v).entries.length → c1.calls = c.calls) := by
  constructor
  · intro hM
    obtain ⟨c1, hadd, _⟩ := Add_returns h.wf hM k v
    exact ⟨c1, hadd⟩
  · intro c1 hadd
    have hwf := (addEntry_spec h.wf k v).1
    obtain ⟨j, new, hj, hll, hcalls, hmap, _, hevs⟩ :=
      evictLoop_calls _ (c.addEntry k v) c1 hwf rfl hadd
    have hon : (c.addEntry k v).onEvicted = true := by rw [addEntry_onEvicted]; exact hcb
    rw [addEntry_calls] at hcalls
    have hent : c1.entries = (c.addEntry k v).entries.take j := by
      rw [entries_take, ← hll]
      rfl
    refine ⟨j, new, hent, hcalls, hmap hon, hevs, ?_⟩
    intro hlen
    have hlen2 : (c.addEntry k v).entries.length = (c.addEntry k v).ll.length := by
      simp [Cache.entries]
    have hjn : (c.addEntry k v).entries.length ≤ j := by
      rw [hent, List.length_take] at hlen
      omega
    have hnil := hmap hon
    rw [List.drop_of_length_le hjn] at hnil
    have hnew : new = [] := by
      cases new with
      | nil => rfl
      | cons x xs => simp at hnil
    rw [hcalls, hnew, List.append_nil]

theorem add_calls_onEvicted_witness :
    (Reachable scenario ∧ scenario.onEvicted = true) ∧
    ((0 ≤ scenario.maxBytes → ∃ c1, scenario.Add "k4" "value4" = some c1) ∧
    ∀ c1, scenario.Add "k4" "value4" = some c1 →
      ∃ j new, c1.entries = (scenario.addEntry "k4" "value4").entries.take j ∧
        c1.calls = scenario.calls ++ new ∧
        new.map (fun ev => (ev.key, ev.value))
          = ((scenario.addEntry "k4" "value4").entries.drop j).reverse ∧
        (∀ ev ∈ new, ev.indexed = false ∧ ev.key ∉ ev.ll.map (fun e => e.Value.key) ∧
          ev.nbytes = int64 (total (ev.ll.map (fun e => (e.Value.key, e.Value.value)))) ∧
          ∃ i, j ≤ i ∧ ev.ll = (scenario.addEntry "k4" "value4").ll.take i ∧
            (scenario.addEntry "k4" "value4").entries.take (i + 1)
              = ev.ll.map (fun e => (e.Value.key, e.Value.value)) ++ [(ev.key, ev.value)]) ∧
        (c1.entries.length = (scenario.addEntry "k4" "value4").entries.length →
          c1.calls = scenario.calls)) :=
  ⟨⟨scenario_reachable, rfl⟩,
    add_calls_onEvicted scenario "k4" "value4" scenario_reachable rfl⟩

/-- C16. In every state reachable from `NewCache` by `Add`, `Get` and `RemoveOldest`, the list
and the index agree: every list element is indexed under its key at its address, every
indexed key points to a list element that carries that key and is the only one that does, and
no key occurs twice in the list. Hence `Get` reports found exactly for the keys of the list,
and `Len()` is the number of keys for which `Get` reports found. -/
theorem len_counts_live {V : Type} [Value V] (c : Cache V) (h : Reachable c) :
    (∀ e ∈ c.ll, c.index e.Value.key = some e.addr) ∧
    (∀ k a, c.index k = some a →
      ∃ e ∈ c.ll, e.addr = a ∧ e.Value.key = k ∧ ∀ e2 ∈ c.ll, e2.Value.key = k → e2 = e) ∧
    c.keys.Nodup ∧
    (∀ k, (c.Get k).1.isSome = true ↔ k ∈ c.keys) ∧
    c.Len = (c.keys.length : Int) ∧
    c.Len = (Set.ncard {k | (c.Get k).1.isSome = true} : Int) := by
  have hwf := h.wf
  have hfound : ∀ k, (c.Get k).1.isSome = true ↔ k ∈ c.keys := by
    intro k
    cases hi : c.index k with
    | none =>
      rw [Get_miss c k hi]
      have := (hwf.index_none_iff k).mp hi
      simp [this]
    | some a =>
      obtain ⟨as, e, bs, hl, _, hek, _, _, hg⟩ := Get_hit hwf hi
      rw [hg]
      have hmem : k ∈ c.keys := by
        unfold Cache.keys
        rw [hl]
        simp [hek]
      simp [hmem]
  have hlen : c.Len = (c.keys.length : Int) := by
    simp [Cache.Len, Cache.keys]
  refine ⟨hwf.indexed, ?_, hwf.keys_nodup, hfound, hlen, ?_⟩
  · intro k a hk
    obtain ⟨e, he, hea, hek⟩ := hwf.listed k a hk
    refine ⟨e, he, hea, hek, ?_⟩
    intro e2 he2 hk2
    exact List.inj_on_of_nodup_map hwf.nodup he2 he (hwf.key_inj he2 he (hk2.trans hek.symm))
  · have hset : {k | (c.Get k).1.isSome = true} = ((c.keys.toFinset : Finset String) : Set String) := by
      ext k
      simp [hfound k]
    rw [hlen, hset, Set.ncard_coe_Finset, List.toFinset_card_of_nodup hwf.keys_nodup]

theorem len_counts_live_witness :
    Reachable scenario ∧
    ((∀ e ∈ scenario.ll, scenario.index e.Value.key = some e.addr) ∧
    (∀ k a, scenario.index k = some a →
      ∃ e ∈ scenario.ll, e.addr = a ∧ e.Value.key = k ∧
        ∀ e2 ∈ scenario.ll, e2.Value.key = k → e2 = e) ∧
    scenario.keys.Nodup ∧
    (∀ k, (scenario.Get k).1.isSome = true ↔ k ∈ scenario.keys) ∧
    scenario.Len = (scenario.keys.length : Int) ∧
    scenario.Len = (Set.ncard {k | (scenario.Get k).1.isSome = true} : Int)) :=
  ⟨scenario_reachable, len_counts_live scenario scenario_reachable⟩

/-- C17. A `Get` of a key that is not live changes nothing. On every cache state, a key that
is not in the index gets `(nil, false)` and the cache after the call is the cache before it:
same list, index, `nbytes`, `maxBytes`, and no call to `onEvicted`. On a reachable state a key
that is not the key of a list entry is not in the index. -/
theorem get_miss_no_effect {V : Type} [Value V] (c : Cache V) (key : String)
    (h : Reachable c) (hk : key ∉ c.keys) :
    c.index key = none ∧ c.Get key = (none, c) ∧
    (∀ (c2 : Cache V) (k2 : String), c2.index k2 = none →
      c2.Get k2 = (none, c2) ∧ (c2.Get k2).2.ll = c2.ll ∧ (c2.Get k2).2.index = c2.index ∧
      (c2.Get k2).2.nbytes = c2.nbytes ∧ (c2.Get k2).2.maxBytes = c2.maxBytes ∧
      (c2.Get k2).2.calls = c2.calls) := by
  have hi := (h.wf.index_none_iff key).mpr hk
  refine ⟨hi, Get_miss c key hi, ?_⟩
  intro c2 k2 h2
  rw [Get_miss c2 k2 h2]
  exact ⟨rfl, rfl, rfl, rfl, rfl, rfl⟩

theorem get_miss_no_effect_witness :
    (Reachable scenario ∧ "k1" ∉ scenario.keys) ∧
    (scenario.index "k1" = none ∧ scenario.Get "k1" = (none, scenario) ∧
    (∀ (c2 : Cache String) (k2 : String), c2.index k2 = none →
      c2.Get k2 = (none, c2) ∧ (c2.Get k2).2.ll = c2.ll ∧ (c2.Get k2).2.index = c2.index ∧
      (c2.Get k2).2.nbytes = c2.nbytes ∧ (c2.Get k2).2.maxBytes = c2.maxBytes ∧
      (c2.Get k2).2.calls = c2.calls)) :=
  ⟨⟨scenario_reachable, by decide⟩,
    get_miss_no_effect scenario "k1" scenario_reachable (by decide)⟩

/-! ### Termination of Add -/

/-- Every call of `RemoveOldest` made by a loop that returns removes one entry. -/
theorem evictRounds_spec {V : Type} [Value V] (n : Nat) :
    ∀ (c c1 : Cache V), c.ll.length = n → Cache.evictLoop n c = some c1 →
      c1.ll.length + Cache.evictRounds n c = n ∧
      ¬ (c1.maxBytes ≠ 0 ∧ c1.maxBytes < c1.nbytes) := by
  induction n with
  | zero =>
    intro c c1 hn hrun
    unfold Cache.evictLoop at hrun
    split at hrun
    · exact Option.noConfusion hrun
    · rename_i hg
      rw [← Option.some.inj hrun]
      exact ⟨by rw [hn]; rfl, hg⟩
  | succ n ih =>
    intro c c1 hn hrun
    unfold Cache.evictLoop at hrun
    split at hrun
    · rename_i hg
      have hlen : c.RemoveOldest.ll.length = n := by
        rw [RemoveOldest_ll, List.length_dropLast, hn]
        rfl
      obtain ⟨h1, h2⟩ := ih c.RemoveOldest c1 hlen hrun
      refine ⟨?_, h2⟩
      unfold Cache.evictRounds
      rw [if_pos hg]
      omega
    · rename_i hg
      rw [← Option.some.inj hrun]
      refine ⟨?_, hg⟩
      unfold Cache.evictRounds
      rw [if_neg hg, hn]

/-- C19. On a reachable cache with `maxBytes >= 0`, `Add` returns: its loop makes at most as
many calls of `RemoveOldest` as there are entries when the loop starts, each call removes one
entry, and the loop exits with a false guard; an empty reachable cache has `nbytes = 0`. No
assumption on the sign of `Len` is needed. With a negative `maxBytes`, on the new (empty)
cache the guard is true and `RemoveOldest` changes nothing, so the loop never exits. -/
theorem add_terminates {V : Type} [Value V] (c : Cache V) (k : String) (v : V)
    (h : Reachable c) (hM : 0 ≤ c.maxBytes) :
    (∃ c1, c.Add k v = some c1 ∧
      Cache.evictRounds (c.addEntry k v).ll.length (c.addEntry k v)
        ≤ (c.addEntry k v).ll.length ∧
      c1.ll.length + Cache.evictRounds (c.addEntry k v).ll.length (c.addEntry k v)
        = (c.addEntry k v).ll.length ∧
      ¬ (c1.maxBytes ≠ 0 ∧ c1.maxBytes < c1.nbytes)) ∧
    (c.ll = [] → c.nbytes = 0) ∧
    (∀ (M : Int) (onEvicted : Bool), M < 0 →
      ((NewCache M onEvicted : Cache V).maxBytes ≠ 0 ∧
        (NewCache M onEvicted : Cache V).maxBytes < (NewCache M onEvicted : Cache V).nbytes) ∧
      (NewCache M onEvicted : Cache V).RemoveOldest = NewCache M onEvicted ∧
      ∀ n, Cache.evictLoop n (NewCache M onEvicted : Cache V) = none) := by
  refine ⟨?_, ?_, ?_⟩
  · obtain ⟨c1, hadd, _⟩ := Add_returns h.wf hM k v
    obtain ⟨h1, h2⟩ := evictRounds_spec _ (c.addEntry k v) c1 rfl hadd
    exact ⟨c1, hadd, by omega, h1, h2⟩
  · intro hl
    rw [h.wf.bytes]
    simp [Cache.entries, hl, total, int64_zero]
  · intro M onEvicted hneg
    have hg : (NewCache M onEvicted : Cache V).maxBytes ≠ 0 ∧
        (NewCache M onEvicted : Cache V).maxBytes < (NewCache M onEvicted : Cache V).nbytes := by
      show M ≠ 0 ∧ M < 0
      exact ⟨ne_of_lt hneg, hneg⟩
    exact ⟨hg, RemoveOldest_nil _ rfl, fun n => evictLoop_spins n _ rfl hg⟩

theorem add_terminates_witness :
    (Reachable scenario ∧ 0 ≤ scenario.maxBytes) ∧
    ((∃ c1, scenario.Add "k4" "value4" = some c1 ∧
      Cache.evictRounds (scenario.addEntry "k4" "value4").ll.length
          (scenario.addEntry "k4" "value4")
        ≤ (scenario.addEntry "k4" "value4").ll.length ∧
      c1.ll.length + Cache.evictRounds (scenario.addEntry "k4" "value4").ll.length
          (scenario.addEntry "k4" "value4")
        = (scenario.addEntry "k4" "value4").ll.length ∧
      ¬ (c1.maxBytes ≠ 0 ∧ c1.maxBytes < c1.nbytes)) ∧
    (scenario.ll = [] → scenario.nbytes = 0) ∧
    (∀ (M : Int) (onEvicted : Bool), M < 0 →
      ((NewCache M onEvicted : Cache String).maxBytes ≠ 0 ∧
        (NewCache M onEvicted : Cache String).maxBytes
          < (NewCache M onEvicted : Cache String).nbytes) ∧
      (NewCache M onEvicted : Cache String).RemoveOldest = NewCache M onEvicted ∧
      ∀ n, Cache.evictLoop n (NewCache M onEvicted : Cache String) = none)) :=
  ⟨⟨scenario_reachable, by decide⟩,
    add_terminates scenario "k4" "value4" scenario_reachable (by decide)⟩

end lru

/-! ## Proofs: the consistent-hash ring -/

namespace consistenthash

/-! ### What Add writes -/

theorem position_congr {m1 m2 : Map} (h : m1.hash = m2.hash) (s : String) :
    m1.position s = m2.position s := by
  unfold Map.position
  rw [h]

theorem applyWrites_append (hm : Int → Option String) (w1 w2 : List (Int × String)) :
    applyWrites hm (w1 ++ w2) = applyWrites (applyWrites hm w1) w2 := by
  unfold applyWrites
  rw [List.foldl_append]

/-- The inner loop of `Add` over a list of replica numbers. -/
theorem addReplica_foldl (key : String) (is : List Nat) :
    ∀ m : Map,
      (is.foldl (Map.addReplica key) m).hash = m.hash ∧
      (is.foldl (Map.addReplica key) m).replicas = m.replicas ∧
      (is.foldl (Map.addReplica key) m).keys
        = m.keys ++ is.map (fun i => m.position (Itoa i ++ key)) ∧
      (is.foldl (Map.addReplica key) m).hashMap
        = applyWrites m.hashMap (is.map (fun i => (m.position (Itoa i ++ key), key))) := by
  induction is with
  | nil =>
    intro m
    simp [applyWrites]
  | cons i rest ih =>
    intro m
    obtain ⟨h1, h2, h3, h4⟩ := ih (Map.addReplica key m i)
    have hh : (Map.addReplica key m i).hash = m.hash := rfl
    have hp : ∀ s, (Map.addReplica key m i).position s = m.position s := position_congr hh
    rw [List.foldl_cons]
    refine ⟨h1.trans hh, h2, ?_, ?_⟩
    · rw [h3]
      simp only [hp, List.map_cons]
      show (m.keys ++ [m.position (Itoa i ++ key)]) ++ _ = _
      simp
    · rw [h4]
      simp only [hp, List.map_cons]
      rfl

theorem addKey_spec (m : Map) (key : String) :
    (m.addKey key).hash = m.hash ∧ (m.addKey key).replicas = m.replicas ∧
    (m.addKey key).keys = m.keys ++ (m.writes [key]).map Prod.fst ∧
    (m.addKey key).hashMap = applyWrites m.hashMap (m.writes [key]) := by
  obtain ⟨h1, h2, h3, h4⟩ := addReplica_foldl key (List.range m.replicas.toNat) m
  refine ⟨h1, h2, ?_, ?_⟩
  · unfold Map.addKey Map.writes
    rw [h3]
    simp [List.flatMap]
  · unfold Map.addKey Map.writes
    rw [h4]
    simp [List.flatMap]

theorem writes_congr {m1 m2 : Map} (hh : m1.hash = m2.hash) (hr : m1.replicas = m2.replicas)
    (names : List String) : m1.writes names = m2.writes names := by
  unfold Map.writes
  rw [hr]
  simp only [position_congr hh]

theorem writes_append (m : Map) (a b : List String) :
    m.writes (a ++ b) = m.writes a ++ m.writes b := by
  unfold Map.writes
  rw [List.flatMap_append]

theorem writes_cons (m : Map) (key : String) (rest : List String) :
    m.writes (key :: rest) = m.writes [key] ++ m.writes rest :=
  writes_append m [key] rest

/-- The outer loop of `Add`, before the sort. -/
theorem addKey_foldl (names : List String) :
    ∀ m : Map,
      (names.foldl Map.addKey m).hash = m.hash ∧
      (names.foldl Map.addKey m).replicas = m.replicas ∧
      (names.foldl Map.addKey m).keys = m.keys ++ (m.writes names).map Prod.fst ∧
      (names.foldl Map.addKey m).hashMap = applyWrites m.hashMap (m.writes names) := by
  induction names with
  | nil =>
    intro m
    simp [Map.writes, applyWrites]
  | cons key rest ih =>
    intro m
    obtain ⟨h1, h2, h3, h4⟩ := ih (m.addKey key)
    obtain ⟨k1, k2, k3, k4⟩ := addKey_spec m key
    have hw : (m.addKey key).writes rest = m.writes rest := writes_congr k1 k2 rest
    rw [List.foldl_cons]
    refine ⟨h1.trans k1, h2.trans k2, ?_, ?_⟩
    · rw [h3, hw, k3, writes_cons m key rest]
      simp
    · rw [h4, hw, k4, writes_cons m key rest, applyWrites_append]

/-- Method `Add` in one formula. -/
theorem ringAdd_spec (m : Map) (names : List String) :
    (m.Add names).hash = m.hash ∧ (m.Add names).replicas = m.replicas ∧
    (m.Add names).keys = Ints (m.keys ++ (m.writes names).map Prod.fst) ∧
    (m.Add names).hashMap = applyWrites m.hashMap (m.writes names) := by
  obtain ⟨h1, h2, h3, h4⟩ := addKey_foldl names m
  refine ⟨h1, h2, ?_, h4⟩
  show Ints (names.foldl Map.addKey m).keys = _
  rw [h3]

/-! ### Sorting -/

theorem Ints_sorted (l : List Int) : (Ints l).Sorted (fun a b => a ≤ b) :=
  List.sorted_insertionSort _ l

theorem Ints_perm (l : List Int) : (Ints l).Perm l :=
  List.perm_insertionSort _ l

theorem Ints_congr {l1 l2 : List Int} (h : l1.Perm l2) : Ints l1 = Ints l2 :=
  List.eq_of_perm_of_sorted ((Ints_perm l1).trans (h.trans (Ints_perm l2).symm))
    (Ints_sorted l1) (Ints_sorted l2)

theorem Ints_of_sorted {l : List Int} (h : l.Sorted (fun a b => a ≤ b)) : Ints l = l :=
  List.Sorted.insertionSort_eq h

/-- A ring after a sequence of `Add` calls, in one formula: the positions written, sorted,
and the assignments made, in their order. Only the sequence of all names added matters, not
the way it is split into calls. -/
theorem addCalls_spec (calls : List (List String)) :
    ∀ m : Map, m.keys.Sorted (fun a b => a ≤ b) →
      (addCalls m calls).hash = m.hash ∧ (addCalls m calls).replicas = m.replicas ∧
      (addCalls m calls).keys = Ints (m.keys ++ (m.writes calls.flatten).map Prod.fst) ∧
      (addCalls m calls).hashMap = applyWrites m.hashMap (m.writes calls.flatten) := by
  induction calls with
  | nil =>
    intro m hs
    refine ⟨rfl, rfl, ?_, ?_⟩
    · show m.keys = _
      simp [Map.writes, Ints_of_sorted hs]
    · simp [addCalls, Map.writes, applyWrites]
  | cons names rest ih =>
    intro m _
    obtain ⟨k1, k2, k3, k4⟩ := ringAdd_spec m names
    have hs1 : (m.Add names).keys.Sorted (fun a b => a ≤ b) := by
      rw [k3]
      exact Ints_sorted _
    obtain ⟨h1, h2, h3, h4⟩ := ih (m.Add names) hs1
    have hw : (m.Add names).writes rest.flatten = m.writes rest.flatten :=
      writes_congr k1 k2 _
    have hunf : addCalls m (names :: rest) = addCalls (m.Add names) rest := rfl
    rw [hunf]
    refine ⟨h1.trans k1, h2.trans k2, ?_, ?_⟩
    · rw [h3, hw, k3, List.flatten_cons, writes_append, List.map_append, ← List.append_assoc]
      apply Ints_congr
      exact List.Perm.append_right _ (Ints_perm _)
    · rw [h4, hw, k4, List.flatten_cons, writes_append, applyWrites_append]

/-- A ring built from `New`. -/
theorem ring_spec (replicas : Int) (fn : Option Hash) (calls : List (List String)) :
    (addCalls (New replicas fn) calls).hash = (New replicas fn).hash ∧
    (addCalls (New replicas fn) calls).replicas = replicas ∧
    (addCalls (New replicas fn) calls).keys
      = Ints (((New replicas fn).writes calls.flatten).map Prod.fst) ∧
    (addCalls (New replicas fn) calls).hashMap
      = applyWrites (fun _ => none) ((New replicas fn).writes calls.flatten) := by
  have hs : (New replicas fn).keys.Sorted (fun a b => a ≤ b) := List.sorted_nil
  obtain ⟨h1, h2, h3, h4⟩ := addCalls_spec calls (New replicas fn) hs
  refine ⟨h1, h2, ?_, h4⟩
  rw [h3]
  rfl

/-- What a map holds at a position after a list of assignments. -/
theorem applyWrites_eq (w : List (Int × String)) :
    ∀ (hm : Int → Option String) (p : Int),
      (p ∈ w.map Prod.fst → ∃ n, applyWrites hm w p = some n ∧ (p, n) ∈ w) ∧
      (p ∉ w.map Prod.fst → applyWrites hm w p = hm p) := by
  induction w using List.reverseRecOn with
  | nil =>
    intro hm p
    simp [applyWrites]
  | append_singleton rest x ih =>
    intro hm p
    obtain ⟨q, n⟩ := x
    have hstep : applyWrites hm (rest ++ [(q, n)]) p
        = if p = q then some n else applyWrites hm rest p := by
      rw [applyWrites_append]
      rfl
    rw [hstep]
    by_cases hpq : p = q
    · subst hpq
      simp
    · simp only [if_neg hpq, List.map_append, List.map_cons, List.map_nil, List.mem_append,
        List.mem_singleton, hpq, or_false]
      constructor
      · intro hmem
        obtain ⟨n1, h1, h2⟩ := (ih hm p).1 hmem
        refine ⟨n1, h1, Or.inl h2⟩
      · intro hmem
        exact (ih hm p).2 hmem

/-! ### Binary search -/

/-- The loop of `sort.Search` on a predicate that is monotone below `n`: it keeps the
predicate false below `i` and true from `j` up to `n`, and ends with `i = j`. -/
theorem searchLoop_spec (f : Nat → Bool) (n : Nat)
    (hmono : ∀ a b, a ≤ b → b < n → f a = true → f b = true) (fuel : Nat) :
    ∀ i j, i ≤ j → j ≤ n → j - i ≤ fuel →
      (∀ x, x < i → f x = false) → (∀ x, j ≤ x → x < n → f x = true) →
      searchLoop f fuel i j ≤ n ∧
      (∀ x, x < searchLoop f fuel i j → f x = false) ∧
      (∀ x, searchLoop f fuel i j ≤ x → x < n → f x = true) := by
  induction fuel with
  | zero =>
    intro i j hij hjn hfuel hlo hhi
    have hji : j = i := by omega
    subst hji
    exact ⟨hjn, hlo, hhi⟩
  | succ fuel ih =>
    intro i j hij hjn hfuel hlo hhi
    unfold searchLoop
    by_cases hlt : i < j
    · rw [if_pos hlt]
      have hh1 : i ≤ (i + j) / 2 := by omega
      have hh2 : (i + j) / 2 < j := by omega
      cases hf : f ((i + j) / 2) with
      | false =>
        simp only [hf, Bool.not_false, if_true]
        apply ih ((i + j) / 2 + 1) j (by omega) hjn (by omega)
        · intro x hx
          cases hfx : f x with
          | false => rfl
          | true =>
            have := hmono x ((i + j) / 2) (by omega) (by omega) hfx
            rw [hf] at this
            exact Bool.noConfusion this
        · exact hhi
      | true =>
        simp only [hf, Bool.not_true, Bool.false_eq_true, if_false]
        apply ih i ((i + j) / 2) hh1 (by omega) (by omega) hlo
        intro x hx hxn
        exact hmono ((i + j) / 2) x hx hxn hf
    · rw [if_neg hlt]
      have hji : j = i := by omega
      subst hji
      exact ⟨hjn, hlo, hhi⟩

/-- The loop of `sort.Search` ends within `j - i` rounds: more rounds change nothing. -/
theorem searchLoop_more (f : Nat → Bool) (fuel : Nat) :
    ∀ i j, j - i ≤ fuel → searchLoop f (fuel + 1) i j = searchLoop f fuel i j := by
  induction fuel with
  | zero =>
    intro i j h
    have hij : ¬ i < j := by omega
    simp [searchLoop, hij]
  | succ fuel ih =>
    intro i j h
    conv_lhs => unfold searchLoop
    conv_rhs => unfold searchLoop
    by_cases hlt : i < j
    · simp only [if_pos hlt]
      rw [ih ((i + j) / 2 + 1) j (by omega), ih i ((i + j) / 2) (by omega)]
    · simp only [if_neg hlt]

theorem Search_spec (f : Nat → Bool) (n : Nat)
    (hmono : ∀ a b, a ≤ b → b < n → f a = true → f b = true) :
    Search n f ≤ n ∧ (∀ x, x < Search n f → f x = false) ∧
    (∀ x, Search n f ≤ x → x < n → f x = true) := by
  unfold Search
  apply searchLoop_spec f n hmono n 0 n (Nat.zero_le _) (le_refl _) (by omega)
  · intro x hx
    omega
  · intro x hx hxn
    omega

/-! ### Lookup -/

theorem sorted_getD_le {l : List Int} (hs : l.Sorted (fun a b => a ≤ b)) {a b : Nat}
    (hab : a ≤ b) (hb : b < l.length) : l.getD a 0 ≤ l.getD b 0 := by
  have ha : a < l.length := lt_of_le_of_lt hab hb
  rw [List.getD_eq_getElem l 0 ha, List.getD_eq_getElem l 0 hb]
  rcases Nat.eq_or_lt_of_le hab with h | h
  · subst h
    exact le_refl _
  · exact (List.pairwise_iff_getElem.mp hs) a b ha hb h

/-- Method `Get` on a ring whose `keys` are sorted: the empty string on an empty ring, and
otherwise what `hashMap` holds at the least position `>=` the hash of the key, or at the
least position of all when no position is `>=` the hash. -/
theorem Get_sorted (m : Map) (hs : m.keys.Sorted (fun a b => a ≤ b)) (key : String) :
    (m.keys = [] ∧ m.Get key = "") ∨
    (∃ p ∈ m.keys, m.Get key = (m.hashMap p).getD "" ∧
      ((m.position key ≤ p ∧ ∀ q ∈ m.keys, m.position key ≤ q → p ≤ q) ∨
       ((∀ q ∈ m.keys, q < m.position key) ∧ ∀ q ∈ m.keys, p ≤ q))) := by
  by_cases hnil : m.keys = []
  · left
    refine ⟨hnil, ?_⟩
    unfold Map.Get
    simp [hnil]
  · right
    have hn : 0 < m.keys.length := List.length_pos.mpr hnil
    have hmono : ∀ a b, a ≤ b → b < m.keys.length →
        (fun i => decide (m.keys.getD i 0 ≥ m.position key)) a = true →
        (fun i => decide (m.keys.getD i 0 ≥ m.position key)) b = true := by
      intro a b hab hb hfa
      have h1 : m.position key ≤ m.keys.getD a 0 := by simpa using hfa
      have h2 := sorted_getD_le hs hab hb
      simpa using le_trans h1 h2
    obtain ⟨hr, hlo, hhi⟩ := Search_spec _ m.keys.length hmono
    have hget : m.Get key = (m.hashMap (m.keys.getD
        (Search m.keys.length (fun i => decide (m.keys.getD i 0 ≥ m.position key))
          % m.keys.length) 0)).getD "" := by
      unfold Map.Get
      rw [if_neg (Nat.pos_iff_ne_zero.mp hn)]
    generalize Search m.keys.length (fun i => decide (m.keys.getD i 0 ≥ m.position key)) = r
      at hr hlo hhi hget
    have hmemD : ∀ i, i < m.keys.length → m.keys.getD i 0 ∈ m.keys := by
      intro i hi
      rw [List.getD_eq_getElem m.keys 0 hi]
      exact List.getElem_mem hi
    have hidx : ∀ q ∈ m.keys, ∃ i, i < m.keys.length ∧ m.keys.getD i 0 = q := by
      intro q hq
      obtain ⟨i, hi, hiq⟩ := List.mem_iff_getElem.mp hq
      exact ⟨i, hi, by rw [List.getD_eq_getElem m.keys 0 hi]; exact hiq⟩
    rcases Nat.lt_or_ge r m.keys.length with hlt | hge
    · have hmod : r % m.keys.length = r := Nat.mod_eq_of_lt hlt
      rw [hmod] at hget
      refine ⟨m.keys.getD r 0, hmemD r hlt, hget, Or.inl ⟨?_, ?_⟩⟩
      · have := hhi r (le_refl _) hlt
        simpa using this
      · intro q hq hpq
        obtain ⟨i, hi, rfl⟩ := hidx q hq
        rcases Nat.lt_or_ge i r with h1 | h1
        · have := hlo i h1
          have h2 : ¬ (m.position key ≤ m.keys.getD i 0) := by simpa using this
          exact absurd hpq h2
        · exact sorted_getD_le hs h1 hi
    · have hrn : r = m.keys.length := le_antisymm hr hge
      have hmod : r % m.keys.length = 0 := by rw [hrn]; exact Nat.mod_self _
      rw [hmod] at hget
      refine ⟨m.keys.getD 0 0, hmemD 0 hn, hget, Or.inr ⟨?_, ?_⟩⟩
      · intro q hq
        obtain ⟨i, hi, rfl⟩ := hidx q hq
        have := hlo i (by rw [hrn]; exact hi)
        have h2 : ¬ (m.position key ≤ m.keys.getD i 0) := by simpa using this
        exact not_le.mp h2
      · intro q hq
        obtain ⟨i, hi, rfl⟩ := hidx q hq
        exact sorted_getD_le hs (Nat.zero_le _) hi

/-- Every position of a ring built from `New` is mapped to a name by `hashMap`, and the
name is one whose virtual node was written at that position. -/
theorem ring_mapped (replicas : Int) (fn : Option Hash) (calls : List (List String))
    (p : Int) (hp : p ∈ (addCalls (New replicas fn) calls).keys) :
    ∃ n, (addCalls (New replicas fn) calls).hashMap p = some n ∧
      (p, n) ∈ (New replicas fn).writes calls.flatten := by
  obtain ⟨_, _, hk, hm⟩ := ring_spec replicas fn calls
  rw [hk] at hp
  have hp1 : p ∈ ((New replicas fn).writes calls.flatten).map Prod.fst :=
    (Ints_perm _).mem_iff.mp hp
  rw [hm]
  exact (applyWrites_eq _ _ p).1 hp1

theorem ring_sorted (replicas : Int) (fn : Option Hash) (calls : List (List String)) :
    (addCalls (New replicas fn) calls).keys.Sorted (fun a b => a ≤ b) := by
  rw [(ring_spec replicas fn calls).2.2.1]
  exact Ints_sorted _

/-- C8. For every ring built by `New` and any sequence of `Add` calls, and every key:
`Get(key)` is `""` when the ring has no positions; otherwise it is the name that `hashMap`
holds at the smallest ring position `p >= hash(key)`, and when no position is `>= hash(key)`
(the hash is greater than every ring position) it is the name held at the smallest ring
position of all. -/
theorem get_is_circular_successor (replicas : Int) (fn : Option Hash)
    (calls : List (List String)) (key : String) :
    ((addCalls (New replicas fn) calls).keys = [] ∧
      (addCalls (New replicas fn) calls).Get key = "") ∨
    (∃ p ∈ (addCalls (New replicas fn) calls).keys,
      (addCalls (New replicas fn) calls).hashMap p
        = some ((addCalls (New replicas fn) calls).Get key) ∧
      (((addCalls (New replicas fn) calls).position key ≤ p ∧
          ∀ q ∈ (addCalls (New replicas fn) calls).keys,
            (addCalls (New replicas fn) calls).position key ≤ q → p ≤ q) ∨
        ((∀ q ∈ (addCalls (New replicas fn) calls).keys,
            q < (addCalls (New replicas fn) calls).position key) ∧
          ∀ q ∈ (addCalls (New replicas fn) calls).keys, p ≤ q))) := by
  rcases Get_sorted _ (ring_sorted replicas fn calls) key with h | ⟨p, hp, hget, hmin⟩
  · exact Or.inl h
  · right
    obtain ⟨n, hn, _⟩ := ring_mapped replicas fn calls p hp
    refine ⟨p, hp, ?_, hmin⟩
    rw [hget, hn]
    rfl

theorem Get_congr {m1 m2 : Map} (hh : m1.hash = m2.hash) (hk : m1.keys = m2.keys)
    (hm : m1.hashMap = m2.hashMap) (key : String) : m1.Get key = m2.Get key := by
  unfold Map.Get
  rw [position_congr hh key, hk, hm]

/-- The name of an assignment is one of the names added, and its position is the position
of one of the replicas of that name. -/
theorem mem_writes {m : Map} {names : List String} {p : Int} {n : String}
    (h : (p, n) ∈ m.writes names) :
    n ∈ names ∧ ∃ i, i < m.replicas.toNat ∧ p = m.position (Itoa i ++ n) := by
  unfold Map.writes at h
  obtain ⟨key, hkey, hmem⟩ := List.mem_flatMap.mp h
  obtain ⟨i, hi, heq⟩ := List.mem_map.mp hmem
  have h1 : m.position (Itoa i ++ key) = p := congrArg Prod.fst heq
  have h2 : key = n := congrArg Prod.snd heq
  subst h2
  exact ⟨hkey, i, List.mem_range.mp hi, h1.symm⟩

/-- On a ring with at least one position `Get` answers with one of the names added. -/
theorem Get_mem_names (replicas : Int) (fn : Option Hash) (calls : List (List String))
    (key : String) (hne : (addCalls (New replicas fn) calls).keys ≠ []) :
    (addCalls (New replicas fn) calls).Get key ∈ calls.flatten := by
  rcases Get_sorted _ (ring_sorted replicas fn calls) key with h | ⟨p, hp, hget, _⟩
  · exact absurd h.1 hne
  · obtain ⟨n, hn, hw⟩ := ring_mapped replicas fn calls p hp
    rw [hget, hn]
    exact (mem_writes hw).1

/-! ### Positions per name -/

/-- The number of assignments made for a name: `replicas` for each time it is added. -/
theorem writes_count (m : Map) (name : String) (names : List String) :
    ((m.writes names).filter (fun x => x.2 == name)).length
      = names.count name * m.replicas.toNat := by
  induction names with
  | nil => simp [Map.writes]
  | cons key rest ih =>
    rw [writes_cons, List.filter_append, List.length_append, ih, List.count_cons]
    have hone : ((m.writes [key]).filter (fun x => x.2 == name)).length
        = if (key == name) = true then m.replicas.toNat else 0 := by
      unfold Map.writes
      simp only [List.flatMap_cons, List.flatMap_nil, List.append_nil, List.filter_map]
      by_cases hk : key = name
      · subst hk
        have hall : List.filter ((fun x : Int × String => x.2 == key) ∘
            fun i => (m.position (Itoa i ++ key), key)) (List.range m.replicas.toNat)
            = List.range m.replicas.toNat := by
          apply List.filter_eq_self.mpr
          intro i _
          simp
        rw [hall]
        simp
      · have hk1 : (key == name) = false := by simpa using hk
        simp [hk1, Function.comp_def]
    rw [hone]
    by_cases hk : (key == name) = true
    · rw [if_pos hk, if_pos hk]
      ring
    · rw [if_neg hk, if_neg hk]
      ring

/-- C10, the claim as stated fails. With `replicas = 1` and a hash function that sends the
virtual nodes `"0A"` and `"0B"` to the same position, after `Add("A", "B")` no ring position
maps back to `"A"`; and after `Add("A")`, `Add("A")` two entries of the ring map back to
`"A"`. The hash function is the length of the data, 2 for both `"0A"` and `"0B"`. -/
theorem positions_not_always_replicas :
    ((New 1 (some lengthHash)).Add ["A", "B"]).keys = [2, 2] ∧
    ((New 1 (some lengthHash)).Add ["A", "B"]).positionsOf "A" = [] ∧
    ((New 1 (some lengthHash)).Add ["A", "B"]).positionsOf "B" = [2, 2] ∧
    (((New 1 (some lengthHash)).Add ["A"]).Add ["A"]).positionsOf "A" = [2, 2] := by
  decide

/-- C10, amended. In a ring built by `New(R, hash)` and any sequence of `Add` calls, if the
virtual nodes of distinct names never have the same position, then for each name the number
of entries of the ring that map back to it is `R` for each time the name was added (`R`
counting as `0` when negative): exactly `R` for a name added once. -/
theorem positions_per_name (replicas : Int) (fn : Option Hash) (calls : List (List String))
    (name : String)
    (hsep : ∀ n1 ∈ calls.flatten, ∀ n2 ∈ calls.flatten,
      ∀ i1, i1 < replicas.toNat → ∀ i2, i2 < replicas.toNat →
      (New replicas fn).position (Itoa i1 ++ n1) = (New replicas fn).position (Itoa i2 ++ n2) →
      n1 = n2) :
    ((addCalls (New replicas fn) calls).positionsOf name).length
      = calls.flatten.count name * replicas.toNat := by
  obtain ⟨_, _, hk, hm⟩ := ring_spec replicas fn calls
  have hcount := writes_count (New replicas fn) name calls.flatten
  have hrep : (New replicas fn).replicas = replicas := rfl
  rw [hrep] at hcount
  rw [← hcount]
  unfold Map.positionsOf
  rw [hk, hm]
  rw [((Ints_perm _).filter _).length_eq, List.filter_map, List.length_map]
  congr 1
  apply List.filter_congr
  intro x hx
  obtain ⟨p, n⟩ := x
  have hp : p ∈ ((New replicas fn).writes calls.flatten).map Prod.fst :=
    List.mem_map.mpr ⟨(p, n), hx, rfl⟩
  obtain ⟨n1, hn1, hw1⟩ := (applyWrites_eq _ (fun _ => none) p).1 hp
  obtain ⟨hmem, i, hi, hpi⟩ := mem_writes hx
  obtain ⟨hmem1, i1, hi1, hpi1⟩ := mem_writes hw1
  rw [hrep] at hi hi1
  have hnn : n1 = n := hsep n1 hmem1 n hmem i1 hi1 i hi (hpi1.symm.trans hpi)
  show (applyWrites (fun _ => none) ((New replicas fn).writes calls.flatten) p == some name)
    = (n == name)
  rw [hn1, hnn]
  by_cases h : n = name
  · simp [h]
  · simp [h]

theorem positions_per_name_witness :
    (∀ n1 ∈ [["A"], ["B", "A"]].flatten, ∀ n2 ∈ [["A"], ["B", "A"]].flatten,
      ∀ i1, i1 < (2 : Int).toNat → ∀ i2, i2 < (2 : Int).toNat →
      (New 2 none).position (Itoa i1 ++ n1) = (New 2 none).position (Itoa i2 ++ n2) →
      n1 = n2) ∧
    ((addCalls (New 2 none) [["A"], ["B", "A"]]).positionsOf "A").length
      = [["A"], ["B", "A"]].flatten.count "A" * (2 : Int).toNat :=
  ⟨by decide, positions_per_name 2 none [["A"], ["B", "A"]] "A" (by decide)⟩

/-! ### Collisions and the order of the names -/

theorem Get_resolves (m : Map) (hs : m.keys.Sorted (fun a b => a ≤ b)) (key : String)
    (hne : m.keys ≠ []) :
    ∃ p, m.resolves key p ∧ m.Get key = (m.hashMap p).getD "" := by
  rcases Get_sorted m hs key with h | ⟨p, hp, hget, hmin⟩
  · exact absurd h.1 hne
  · exact ⟨p, ⟨hp, hmin⟩, hget⟩

/-- A lookup resolves to one position only. -/
theorem resolves_unique {m : Map} {key : String} {p q : Int}
    (hp : m.resolves key p) (hq : m.resolves key q) : p = q := by
  obtain ⟨hpm, hp1⟩ := hp
  obtain ⟨hqm, hq1⟩ := hq
  rcases hp1 with ⟨a1, a2⟩ | ⟨a1, a2⟩ <;> rcases hq1 with ⟨b1, b2⟩ | ⟨b1, b2⟩
  · exact le_antisymm (a2 q hqm b1) (b2 p hpm a1)
  · exact absurd a1 (not_le.mpr (b1 p hpm))
  · exact absurd b1 (not_le.mpr (a1 q hqm))
  · exact le_antisymm (a2 q hqm) (b2 p hpm)

theorem writes_mem {m : Map} {names : List String} {n : String} {t : Nat}
    (hn : n ∈ names) (ht : t < m.replicas.toNat) :
    (m.position (Itoa t ++ n), n) ∈ m.writes names := by
  unfold Map.writes
  exact List.mem_flatMap.mpr ⟨n, hn, List.mem_map.mpr ⟨t, List.mem_range.mpr ht, rfl⟩⟩

/-- The positions of a ring built from `New` are the positions of the virtual nodes of the
names added. -/
theorem mem_ring_keys (replicas : Int) (fn : Option Hash) (calls : List (List String))
    (p : Int) :
    p ∈ (addCalls (New replicas fn) calls).keys ↔
      ∃ n ∈ calls.flatten, ∃ t, t < replicas.toNat ∧
        p = (New replicas fn).position (Itoa t ++ n) := by
  rw [(ring_spec replicas fn calls).2.2.1, (Ints_perm _).mem_iff]
  constructor
  · intro hp
    obtain ⟨x, hx, hxp⟩ := List.mem_map.mp hp
    obtain ⟨q, n⟩ := x
    have hq : q = p := hxp
    subst hq
    obtain ⟨hn, t, ht, hpt⟩ := mem_writes hx
    exact ⟨n, hn, t, ht, hpt⟩
  · rintro ⟨n, hn, t, ht, rfl⟩
    exact List.mem_map.mpr ⟨_, writes_mem hn ht, rfl⟩

/-- The last assignment to a position decides what the map holds there. -/
theorem applyWrites_last (hm : Int → Option String) (w1 w2 : List (Int × String)) (p : Int)
    (n : String) (hmem : (p, n) ∈ w2) (hlast : ∀ x ∈ w2, x.1 = p → x.2 = n) :
    applyWrites hm (w1 ++ w2) p = some n := by
  rw [applyWrites_append]
  have hp : p ∈ w2.map Prod.fst := List.mem_map.mpr ⟨(p, n), hmem, rfl⟩
  obtain ⟨n1, h1, h2⟩ := (applyWrites_eq w2 (applyWrites hm w1) p).1 hp
  rw [h1, ← hlast (p, n1) h2 rfl]

theorem ring_position (replicas : Int) (fn : Option Hash) (calls : List (List String))
    (s : String) :
    (addCalls (New replicas fn) calls).position s = (New replicas fn).position s :=
  position_congr (ring_spec replicas fn calls).1 s

/-- C11. In a ring built by `New` and `Add` calls, let the virtual node `i` of `A` and the
virtual node `j` of a distinct name `B` have the same position `p`, let `B` be added after
`A` (the names added are `xs ++ B :: ys` with `A` in `xs`, whatever the split into calls), and
let no name added after that `B` other than `B` have a virtual node at `p`. Then the
assignment of `A` at `p` was made and overwritten: `hashMap` holds `B` at `p`, not `A`, and
`Get` returns `B` for every key whose lookup resolves to `p`. `Add` is
a total function: nothing fails. Every virtual node of `A` keeps its position in the ring,
and a position of `A` at which no other name has a virtual node still maps to `A`. -/
theorem collision_last_wins (replicas : Int) (fn : Option Hash) (calls : List (List String))
    (A B : String) (xs ys : List String) (i j : Nat) (p : Int)
    (hAB : A ≠ B) (hsplit : calls.flatten = xs ++ B :: ys) (hA : A ∈ xs)
    (hi : i < replicas.toNat) (hj : j < replicas.toNat)
    (hpA : (New replicas fn).position (Itoa i ++ A) = p)
    (hpB : (New replicas fn).position (Itoa j ++ B) = p)
    (hlast : ∀ n ∈ ys, ∀ t, t < replicas.toNat →
      (New replicas fn).position (Itoa t ++ n) = p → n = B) :
    (p, A) ∈ (New replicas fn).writes calls.flatten ∧
    (addCalls (New replicas fn) calls).hashMap ((New replicas fn).position (Itoa i ++ A))
      = some B ∧
    (addCalls (New replicas fn) calls).hashMap p = some B ∧
    (addCalls (New replicas fn) calls).hashMap p ≠ some A ∧
    p ∈ (addCalls (New replicas fn) calls).keys ∧
    (∀ key, (addCalls (New replicas fn) calls).resolves key p →
      (addCalls (New replicas fn) calls).Get key = B) ∧
    (∀ t, t < replicas.toNat →
      (New replicas fn).position (Itoa t ++ A) ∈ (addCalls (New replicas fn) calls).keys ∧
      ((∀ n ∈ calls.flatten, ∀ u, u < replicas.toNat →
          (New replicas fn).position (Itoa u ++ n) = (New replicas fn).position (Itoa t ++ A) →
          n = A) →
        (addCalls (New replicas fn) calls).hashMap ((New replicas fn).position (Itoa t ++ A))
          = some A)) := by
  have hrep : (New replicas fn).replicas = replicas := rfl
  have hmap : (addCalls (New replicas fn) calls).hashMap p = some B := by
    rw [(ring_spec replicas fn calls).2.2.2, hsplit, writes_append]
    apply applyWrites_last
    · rw [← hpB]
      exact writes_mem (List.mem_cons_self _ _) (by rw [hrep]; exact hj)
    · intro x hx hxp
      obtain ⟨q, n⟩ := x
      obtain ⟨hn, t, ht, hqt⟩ := mem_writes hx
      rw [hrep] at ht
      rcases List.mem_cons.mp hn with h | h
      · exact h
      · have hq : q = p := hxp
        exact hlast n h t ht (hqt.symm.trans hq)
  have hBmem : B ∈ calls.flatten := by rw [hsplit]; simp
  have hAmem : A ∈ calls.flatten := by rw [hsplit]; exact List.mem_append_left _ hA
  have hpk : p ∈ (addCalls (New replicas fn) calls).keys :=
    (mem_ring_keys replicas fn calls p).mpr ⟨B, hBmem, j, hj, hpB.symm⟩
  refine ⟨?_, ?_, hmap, ?_, hpk, ?_, ?_⟩
  · rw [← hpA]
    exact writes_mem hAmem (by rw [hrep]; exact hi)
  · rw [hpA]
    exact hmap
  · rw [hmap]
    intro h
    exact hAB (Option.some.inj h).symm
  · intro key hres
    have hne : (addCalls (New replicas fn) calls).keys ≠ [] := List.ne_nil_of_mem hpk
    obtain ⟨q, hq, hget⟩ := Get_resolves _ (ring_sorted replicas fn calls) key hne
    rw [hget, resolves_unique hq hres, hmap]
    rfl
  · intro t ht
    have hqk : (New replicas fn).position (Itoa t ++ A)
        ∈ (addCalls (New replicas fn) calls).keys :=
      (mem_ring_keys replicas fn calls _).mpr ⟨A, hAmem, t, ht, rfl⟩
    refine ⟨hqk, ?_⟩
    intro honly
    obtain ⟨n, hn, hw⟩ := ring_mapped replicas fn calls _ hqk
    obtain ⟨hnm, u, hu, hpu⟩ := mem_writes hw
    rw [hrep] at hu
    rw [hn, honly n hnm u hu hpu.symm]

theorem collision_last_wins_witness :
    (("A" : String) ≠ "B" ∧ [["A"], ["B"]].flatten = ["A"] ++ "B" :: [] ∧ "A" ∈ ["A"] ∧
      0 < (2 : Int).toNat ∧ 1 < (2 : Int).toNat ∧
      (New 2 (some tableHash)).position (Itoa 0 ++ "A") = 10 ∧
      (New 2 (some tableHash)).position (Itoa 1 ++ "B") = 10) ∧
    ((10, "A") ∈ (New 2 (some tableHash)).writes [["A"], ["B"]].flatten ∧
    (addCalls (New 2 (some tableHash)) [["A"], ["B"]]).hashMap
      ((New 2 (some tableHash)).position (Itoa 0 ++ "A")) = some "B" ∧
    (addCalls (New 2 (some tableHash)) [["A"], ["B"]]).hashMap 10 = some "B" ∧
    (addCalls (New 2 (some tableHash)) [["A"], ["B"]]).hashMap 10 ≠ some "A" ∧
    10 ∈ (addCalls (New 2 (some tableHash)) [["A"], ["B"]]).keys ∧
    (∀ key, (addCalls (New 2 (some tableHash)) [["A"], ["B"]]).resolves key 10 →
      (addCalls (New 2 (some tableHash)) [["A"], ["B"]]).Get key = "B") ∧
    (∀ t, t < (2 : Int).toNat →
      (New 2 (some tableHash)).position (Itoa t ++ "A")
        ∈ (addCalls (New 2 (some tableHash)) [["A"], ["B"]]).keys ∧
      ((∀ n ∈ [["A"], ["B"]].flatten, ∀ u, u < (2 : Int).toNat →
          (New 2 (some tableHash)).position (Itoa u ++ n)
            = (New 2 (some tableHash)).position (Itoa t ++ "A") →
          n = "A") →
        (addCalls (New 2 (some tableHash)) [["A"], ["B"]]).hashMap
            ((New 2 (some tableHash)).position (Itoa t ++ "A"))
          = some "A"))) :=
  ⟨⟨by decide, by decide, by decide, by decide, by decide, by decide, by decide⟩,
    collision_last_wins 2 (some tableHash) [["A"], ["B"]] "A" "B" ["A"] [] 0 1 10
      (by decide) (by decide) (by decide) (by decide) (by decide) (by decide) (by decide)
      (by intro n hn; exact absurd hn (List.not_mem_nil n))⟩

/-- What `hashMap` holds at a position of the ring, when the virtual nodes of distinct names
never have the same position: the one name with a virtual node there. -/
theorem ring_mapped_sep (replicas : Int) (fn : Option Hash) (calls : List (List String))
    (hsep : ∀ n1 ∈ calls.flatten, ∀ n2 ∈ calls.flatten,
      ∀ t1, t1 < replicas.toNat → ∀ t2, t2 < replicas.toNat →
      (New replicas fn).position (Itoa t1 ++ n1) = (New replicas fn).position (Itoa t2 ++ n2) →
      n1 = n2)
    (n : String) (hn : n ∈ calls.flatten) (t : Nat) (ht : t < replicas.toNat) :
    (addCalls (New replicas fn) calls).hashMap ((New replicas fn).position (Itoa t ++ n))
      = some n := by
  have hrep : (New replicas fn).replicas = replicas := rfl
  have hk := (mem_ring_keys replicas fn calls _).mpr ⟨n, hn, t, ht, rfl⟩
  obtain ⟨n1, h1, hw⟩ := ring_mapped replicas fn calls _ hk
  obtain ⟨hn1, u, hu, hpu⟩ := mem_writes hw
  rw [hrep] at hu
  rw [h1, hsep n1 hn1 n hn u hu t ht hpu.symm]

/-- When the virtual nodes of distinct names never have the same position, `Get` depends
on the names added only through their set. -/
theorem Get_same_names (replicas : Int) (fn : Option Hash)
    (calls1 calls2 : List (List String)) (key : String)
    (hset : ∀ n, n ∈ calls1.flatten ↔ n ∈ calls2.flatten)
    (hsep : ∀ n1 ∈ calls1.flatten, ∀ n2 ∈ calls1.flatten,
      ∀ t1, t1 < replicas.toNat → ∀ t2, t2 < replicas.toNat →
      (New replicas fn).position (Itoa t1 ++ n1) = (New replicas fn).position (Itoa t2 ++ n2) →
      n1 = n2) :
    (addCalls (New replicas fn) calls1).Get key = (addCalls (New replicas fn) calls2).Get key := by
  have hsep2 : ∀ n1 ∈ calls2.flatten, ∀ n2 ∈ calls2.flatten,
      ∀ t1, t1 < replicas.toNat → ∀ t2, t2 < replicas.toNat →
      (New replicas fn).position (Itoa t1 ++ n1) = (New replicas fn).position (Itoa t2 ++ n2) →
      n1 = n2 := fun n1 h1 n2 h2 => hsep n1 ((hset n1).mpr h1) n2 ((hset n2).mpr h2)
  have hkeys : ∀ p, p ∈ (addCalls (New replicas fn) calls1).keys ↔
      p ∈ (addCalls (New replicas fn) calls2).keys := by
    intro p
    rw [mem_ring_keys, mem_ring_keys]
    constructor
    · rintro ⟨n, hn, t, ht, hp⟩
      exact ⟨n, (hset n).mp hn, t, ht, hp⟩
    · rintro ⟨n, hn, t, ht, hp⟩
      exact ⟨n, (hset n).mpr hn, t, ht, hp⟩
  have hpos : (addCalls (New replicas fn) calls1).position key
      = (addCalls (New replicas fn) calls2).position key := by
    rw [ring_position, ring_position]
  by_cases hnil : (addCalls (New replicas fn) calls1).keys = []
  · have hnil2 : (addCalls (New replicas fn) calls2).keys = [] := by
      apply List.eq_nil_iff_forall_not_mem.mpr
      intro p hp
      have := (hkeys p).mpr hp
      rw [hnil] at this
      exact absurd this (List.not_mem_nil p)
    unfold Map.Get
    simp [hnil, hnil2]
  · have hnil2 : (addCalls (New replicas fn) calls2).keys ≠ [] := by
      obtain ⟨p, hp⟩ := List.exists_mem_of_ne_nil _ hnil
      exact List.ne_nil_of_mem ((hkeys p).mp hp)
    obtain ⟨p, hp, hget1⟩ := Get_resolves _ (ring_sorted replicas fn calls1) key hnil
    obtain ⟨q, hq, hget2⟩ := Get_resolves _ (ring_sorted replicas fn calls2) key hnil2
    have hq1 : (addCalls (New replicas fn) calls1).resolves key q := by
      obtain ⟨hqm, hq2⟩ := hq
      refine ⟨(hkeys q).mpr hqm, ?_⟩
      rw [hpos]
      rcases hq2 with ⟨b1, b2⟩ | ⟨b1, b2⟩
      · exact Or.inl ⟨b1, fun r hr => b2 r ((hkeys r).mp hr)⟩
      · exact Or.inr ⟨fun r hr => b1 r ((hkeys r).mp hr), fun r hr => b2 r ((hkeys r).mp hr)⟩
    have hpq : p = q := resolves_unique hp hq1
    subst hpq
    obtain ⟨n, hn, t, ht, hpt⟩ := (mem_ring_keys replicas fn calls1 p).mp hp.1
    rw [hget1, hget2, hpt, ring_mapped_sep replicas fn calls1 hsep n hn t ht,
      ring_mapped_sep replicas fn calls2 hsep2 n ((hset n).mp hn) t ht]

/-! ### Determinism -/

/-- C9, the claim as stated fails: with `replicas = 3` and a hash function under which all
virtual nodes have the same position, the rings built by `Add("A", "B")` and by
`Add("B", "A")` hold the same set of names, and `Get("hello")` returns `"B"` on the first
and `"A"` on the second: the later assignment overwrites the earlier one in `hashMap`. -/
theorem get_depends_on_order :
    ([["A", "B"]].flatten).Perm ([["B", "A"]].flatten) ∧
    (addCalls (New 3 (some lengthHash)) [["A", "B"]]).Get "hello" = "B" ∧
    (addCalls (New 3 (some lengthHash)) [["B", "A"]]).Get "hello" = "A" ∧
    (addCalls (New 3 (some lengthHash)) [["A", "B"]]).Get "hello"
      ≠ (addCalls (New 3 (some lengthHash)) [["B", "A"]]).Get "hello" :=
  ⟨by decide, by decide, by decide, by decide⟩

/-- C9, amended. For a fixed replica count and hash function, take two rings to which the same
set of names was added, and let the names be added in the same order (however they are split
into `Add` calls), or let the virtual nodes of distinct names never have the same position.
Then `Get(key)` is the same on the two rings, for every key; with the same order the rings
have the same `keys` and the same `hashMap`. `Get` is a function of the ring and of the key
and gives no new ring, so it returns the same name on every call. With `replicas = 3` and
the nodes `"A"`, `"B"`, whatever the hash function, `Get("hello")` is one of `"A"` and
`"B"`. -/
theorem get_deterministic (replicas : Int) (fn : Option Hash) (calls1 calls2 : List (List String))
    (key : String)
    (hsame : calls1.flatten = calls2.flatten ∨
      ((∀ n, n ∈ calls1.flatten ↔ n ∈ calls2.flatten) ∧
        ∀ n1 ∈ calls1.flatten, ∀ n2 ∈ calls1.flatten,
          ∀ t1, t1 < replicas.toNat → ∀ t2, t2 < replicas.toNat →
          (New replicas fn).position (Itoa t1 ++ n1)
            = (New replicas fn).position (Itoa t2 ++ n2) →
          n1 = n2)) :
    (addCalls (New replicas fn) calls1).Get key = (addCalls (New replicas fn) calls2).Get key ∧
    (calls1.flatten = calls2.flatten →
      (addCalls (New replicas fn) calls1).keys = (addCalls (New replicas fn) calls2).keys ∧
      (addCalls (New replicas fn) calls1).hashMap
        = (addCalls (New replicas fn) calls2).hashMap) ∧
    ((addCalls (New 3 fn) [["A", "B"]]).Get "hello" = "A" ∨
      (addCalls (New 3 fn) [["A", "B"]]).Get "hello" = "B") := by
  obtain ⟨a1, _, a3, a4⟩ := ring_spec replicas fn calls1
  obtain ⟨b1, _, b3, b4⟩ := ring_spec replicas fn calls2
  have heq : calls1.flatten = calls2.flatten →
      (addCalls (New replicas fn) calls1).keys = (addCalls (New replicas fn) calls2).keys ∧
      (addCalls (New replicas fn) calls1).hashMap
        = (addCalls (New replicas fn) calls2).hashMap := by
    intro hs
    constructor
    · rw [a3, b3, hs]
    · rw [a4, b4, hs]
  refine ⟨?_, heq, ?_⟩
  · rcases hsame with hs | ⟨hset, hsep⟩
    · exact Get_congr (a1.trans b1.symm) (heq hs).1 (heq hs).2 key
    · exact Get_same_names replicas fn calls1 calls2 key hset hsep
  · have hne : (addCalls (New 3 fn) [["A", "B"]]).keys ≠ [] := by
      intro hnil
      have hlen := congrArg List.length hnil
      rw [(ring_spec 3 fn [["A", "B"]]).2.2.1, (Ints_perm _).length_eq] at hlen
      simp [Map.writes, New] at hlen
    have := Get_mem_names 3 fn [["A", "B"]] "hello" hne
    simpa using this

theorem get_deterministic_witness :
    ([["A", "B"], ["C"]].flatten = [["A"], [], ["B", "C"]].flatten ∨
      ((∀ n, n ∈ [["A", "B"], ["C"]].flatten ↔ n ∈ [["A"], [], ["B", "C"]].flatten) ∧
        ∀ n1 ∈ [["A", "B"], ["C"]].flatten, ∀ n2 ∈ [["A", "B"], ["C"]].flatten,
          ∀ t1, t1 < (2 : Int).toNat → ∀ t2, t2 < (2 : Int).toNat →
          (New 2 none).position (Itoa t1 ++ n1) = (New 2 none).position (Itoa t2 ++ n2) →
          n1 = n2)) ∧
    ((addCalls (New 2 none) [["A", "B"], ["C"]]).Get "key"
        = (addCalls (New 2 none) [["A"], [], ["B", "C"]]).Get "key" ∧
      ([["A", "B"], ["C"]].flatten = [["A"], [], ["B", "C"]].flatten →
        (addCalls (New 2 none) [["A", "B"], ["C"]]).keys
          = (addCalls (New 2 none) [["A"], [], ["B", "C"]]).keys ∧
        (addCalls (New 2 none) [["A", "B"], ["C"]]).hashMap
          = (addCalls (New 2 none) [["A"], [], ["B", "C"]]).hashMap) ∧
      ((addCalls (New 3 none) [["A", "B"]]).Get "hello" = "A" ∨
        (addCalls (New 3 none) [["A", "B"]]).Get "hello" = "B")) :=
  ⟨Or.inl (by decide),
    get_deterministic 2 none [["A", "B"], ["C"]] [["A"], [], ["B", "C"]] "key"
      (Or.inl (by decide))⟩

/-- C20. For a fixed replica count and hash function under which the virtual nodes of
distinct names added never have the same position, two rings to which the same set of names
was added, in any order, split over any `Add` calls and with any repetitions, return the same
`Get(key)` for every key. -/
theorem get_depends_on_name_set (replicas : Int) (fn : Option Hash)
    (calls1 calls2 : List (List String)) (key : String)
    (hset : ∀ n, n ∈ calls1.flatten ↔ n ∈ calls2.flatten)
    (hsep : ∀ n1 ∈ calls1.flatten, ∀ n2 ∈ calls1.flatten,
      ∀ t1, t1 < replicas.toNat → ∀ t2, t2 < replicas.toNat →
      (New replicas fn).position (Itoa t1 ++ n1) = (New replicas fn).position (Itoa t2 ++ n2) →
      n1 = n2) :
    (addCalls (New replicas fn) calls1).Get key = (addCalls (New replicas fn) calls2).Get key :=
  Get_same_names replicas fn calls1 calls2 key hset hsep

theorem get_depends_on_name_set_witness :
    ((∀ n, n ∈ [["A", "B"]].flatten ↔ n ∈ [["B"], ["A", "B", "A"]].flatten) ∧
      (∀ n1 ∈ [["A", "B"]].flatten, ∀ n2 ∈ [["A", "B"]].flatten,
        ∀ t1, t1 < (2 : Int).toNat → ∀ t2, t2 < (2 : Int).toNat →
        (New 2 none).position (Itoa t1 ++ n1) = (New 2 none).position (Itoa t2 ++ n2) →
        n1 = n2)) ∧
    (addCalls (New 2 none) [["A", "B"]]).Get "hello"
      = (addCalls (New 2 none) [["B"], ["A", "B", "A"]]).Get "hello" :=
  ⟨⟨by intro n; simp; tauto, by decide⟩,
    get_depends_on_name_set 2 none [["A", "B"]] [["B"], ["A", "B", "A"]] "hello"
      (by intro n; simp; tauto) (by decide)⟩

end consistenthash

/-! ## Proofs: the cache facade and the group -/

namespace geecache

theorem Get_none_unchanged {V : Type} (l : lru.Cache V) (key : String)
    (h : (l.Get key).1 = none) : (l.Get key).2 = l := by
  unfold lru.Cache.Get at h ⊢
  split
  · split
    · rename_i h1 _ _ h2
      rw [h1] at h
      simp only [h2] at h
      exact Option.noConfusion h
    · rfl
  · rfl

theorem Get_maxBytes {V : Type} (l : lru.Cache V) (key : String) :
    (l.Get key).2.maxBytes = l.maxBytes := by
  unfold lru.Cache.Get
  split
  · split <;> rfl
  · rfl

theorem cache_get_none (c : cache) (key : String) (h : c.lru = none) :
    c.get key = (none, c) := by
  unfold cache.get
  rw [h]

theorem cache_get_some (c : cache) (l : lru.Cache ByteView) (key : String)
    (h : c.lru = some l) :
    c.get key = ((l.Get key).1, { c with lru := some (l.Get key).2 }) := by
  unfold cache.get
  rw [h]
  rcases hq : l.Get key with ⟨_ | v, l1⟩ <;> simp only [hq]

/-- A miss of the facade leaves the facade as it is. -/
theorem cache_get_miss (c : cache) (key : String) (h : (c.get key).1 = none) :
    c.get key = (none, c) := by
  cases hl : c.lru with
  | none => exact cache_get_none c key hl
  | some l =>
    rw [cache_get_some c l key hl] at h ⊢
    have h1 : (l.Get key).1 = none := h
    rw [h1, Get_none_unchanged l key h1]
    cases c
    simp only at hl
    rw [hl]

theorem cache_get_ok (c : cache) (key : String) (h : c.ok) : (c.get key).2.ok := by
  cases hl : c.lru with
  | none =>
    rw [cache_get_none c key hl]
    exact h
  | some l =>
    rw [cache_get_some c l key hl]
    intro l1 hl1
    have heq : (l.Get key).2 = l1 := Option.some.inj hl1
    obtain ⟨hwf, hmax⟩ := h l hl
    rw [← heq]
    exact ⟨hwf.get key, by rw [Get_maxBytes]; exact hmax⟩

/-- The engine that `cache.add` uses: the one of the facade, or a new one. -/
theorem cache_add_some (c c1 : cache) (key : String) (value : ByteView)
    (h : c.add key value = some c1) :
    ∃ engine l1, (c.lru = some engine ∨ (c.lru = none ∧ engine = lru.NewCache c.cacheBytes false)) ∧
      engine.Add key value = some l1 ∧ c1 = { c with lru := some l1 } := by
  unfold cache.add at h
  cases hl : c.lru with
  | none =>
    rw [hl] at h
    simp only at h
    split at h
    · rename_i l1 hadd
      exact ⟨_, l1, Or.inr ⟨rfl, rfl⟩, hadd, (Option.some.inj h).symm⟩
    · exact Option.noConfusion h
  | some l =>
    rw [hl] at h
    simp only at h
    split at h
    · rename_i l1 hadd
      exact ⟨l, l1, Or.inl rfl, hadd, (Option.some.inj h).symm⟩
    · exact Option.noConfusion h

theorem cache_add_ok (c c1 : cache) (key : String) (value : ByteView) (hok : c.ok)
    (h : c.add key value = some c1) : c1.ok := by
  obtain ⟨engine, l1, heng, hadd, hc1⟩ := cache_add_some c c1 key value h
  have hwf : lru.WF engine ∧ engine.maxBytes = c.cacheBytes := by
    rcases heng with h1 | ⟨_, h2⟩
    · exact hok engine h1
    · rw [h2]
      exact ⟨lru.WF.new _ _, rfl⟩
  obtain ⟨hwf1, hmax1, _, _⟩ := lru.Add_take hwf.1 hadd
  rw [hc1]
  intro l2 hl2
  have heq : l1 = l2 := Option.some.inj hl2
  rw [← heq]
  exact ⟨hwf1, hmax1.trans hwf.2⟩

/-! ### The paths of Group.Get -/

theorem group_get_empty {σ E : Type} (g : Group σ E) :
    g.Get "" = some ((⟨[]⟩, some GetError.keyRequired), g) := by
  unfold Group.Get
  rw [if_pos rfl]

theorem group_get_hit {σ E : Type} (g : Group σ E) (key : String) (v : ByteView) (c1 : cache)
    (hk : key ≠ "") (h : g.mainCache.get key = (some v, c1)) :
    g.Get key = some ((v, none),
      { g with mainCache := c1, trace := g.trace ++ [Event.get key] }) := by
  unfold Group.Get
  rw [if_neg hk]
  simp only [h]

theorem group_get_miss {σ E : Type} (g : Group σ E) (key : String)
    (hk : key ≠ "") (h : (g.mainCache.get key).1 = none) :
    g.Get key = Group.getLocally { g with trace := g.trace ++ [Event.get key] } key := by
  unfold Group.Get
  rw [if_neg hk]
  simp only [cache_get_miss g.mainCache key h]
  rfl

theorem getLocally_error {σ E : Type} (g : Group σ E) (key : String) (e : E) (w : σ)
    (h : g.getter key g.world = (Except.error e, w)) :
    g.getLocally key = some ((⟨[]⟩, some (GetError.getter e)),
      { g with world := w, trace := g.trace ++ [Event.load key] }) := by
  unfold Group.getLocally
  simp only [h]

theorem getLocally_ok {σ E : Type} (g : Group σ E) (key : String) (bytes : List UInt8) (w : σ)
    (h : g.getter key g.world = (Except.ok bytes, w)) :
    g.getLocally key =
      match g.mainCache.add key ⟨bytes⟩ with
      | some mc =>
        some ((⟨bytes⟩, none),
          { g with mainCache := mc, world := w,
                   trace := g.trace ++ [Event.load key] ++ [Event.add key] })
      | none => none := by
  unfold Group.getLocally
  simp only [h]
  unfold Group.populateCache cloneBytes
  cases g.mainCache.add key ⟨bytes⟩ <;> rfl

/-- Method `Group.Get` keeps the engine of the facade well formed. -/
theorem group_get_ok {σ E : Type} (g g1 : Group σ E) (key : String)
    (r : ByteView × Option (GetError E)) (hok : g.mainCache.ok)
    (h : g.Get key = some (r, g1)) :
    g1.mainCache.ok ∧ g1.mainCache.cacheBytes = g.mainCache.cacheBytes := by
  by_cases hk : key = ""
  · subst hk
    rw [group_get_empty] at h
    have := (Prod.mk.inj (Option.some.inj h)).2
    rw [← this]
    exact ⟨hok, rfl⟩
  · cases hq : (g.mainCache.get key).1 with
    | some v =>
      have hpair : g.mainCache.get key = (some v, (g.mainCache.get key).2) := by
        rw [← hq]
      rw [group_get_hit g key v _ hk hpair] at h
      have := (Prod.mk.inj (Option.some.inj h)).2
      rw [← this]
      refine ⟨cache_get_ok g.mainCache key hok, ?_⟩
      cases hl : g.mainCache.lru with
      | none => rw [cache_get_none _ _ hl]
      | some l => rw [cache_get_some _ l _ hl]
    | none =>
      rw [group_get_miss g key hk hq] at h
      rcases hload : g.getter key g.world with ⟨_ | bytes, w⟩
      · rename_i e
        rw [getLocally_error { g with trace := g.trace ++ [Event.get key] } key e w hload] at h
        have := (Prod.mk.inj (Option.some.inj h)).2
        rw [← this]
        exact ⟨hok, rfl⟩
      · rw [getLocally_ok { g with trace := g.trace ++ [Event.get key] } key bytes w hload] at h
        cases hadd : g.mainCache.add key ⟨bytes⟩ with
        | none =>
          simp only [hadd] at h
          exact Option.noConfusion h
        | some mc =>
          simp only [hadd] at h
          have := (Prod.mk.inj (Option.some.inj h)).2
          rw [← this]
          refine ⟨cache_add_ok g.mainCache mc key ⟨bytes⟩ hok hadd, ?_⟩
          obtain ⟨_, l1, _, _, hmc⟩ := cache_add_some _ _ _ _ hadd
          rw [hmc]

/-- What `NewGroup` returns is a group that a program can hold. -/
theorem NewGroup_reachable {σ E : Type} (name : String) (cacheBytes : Int)
    (getter : Option (Getter σ E)) (world : σ) (g : Group σ E)
    (h : NewGroup name cacheBytes getter world = some g) : g.Reachable := by
  unfold NewGroup at h
  cases getter with
  | none => exact Option.noConfusion h
  | some f =>
    rw [← Option.some.inj h]
    exact Group.Reachable.new name cacheBytes f world

theorem Group.Reachable.ok {σ E : Type} {g : Group σ E} (h : g.Reachable) : g.mainCache.ok := by
  induction h with
  | new name cacheBytes getter world =>
    intro l hl
    exact Option.noConfusion hl
  | get key r _ hget ih => exact (group_get_ok _ _ key r ih hget).1

/-- An entry that fits stays in the engine after `cache.add`. -/
theorem cache_add_fits (c : cache) (key : String) (value : ByteView) (hok : c.ok)
    (hfits : c.cacheBytes = 0 ∨ lru.len key + (value.b.length : Int) ≤ c.cacheBytes) :
    ∃ l1, c.add key value = some { c with lru := some l1 } ∧ lru.WF l1 ∧
      (key, value) ∈ l1.entries := by
  have hstep : ∀ engine : lru.Cache ByteView, lru.WF engine → engine.maxBytes = c.cacheBytes →
      ∃ l1, engine.Add key value = some l1 ∧ lru.WF l1 ∧ (key, value) ∈ l1.entries := by
    intro engine hwf hmax
    have hf : engine.maxBytes = 0 ∨ lru.len key + lru.Value.Len value ≤ engine.maxBytes := by
      rw [hmax]
      exact hfits
    obtain ⟨l1, j, hadd, hwf1, _, hent⟩ := lru.Add_fits hwf key value hf
    refine ⟨l1, hadd, hwf1, ?_⟩
    rw [hent]
    exact List.mem_cons_self _ _
  cases hl : c.lru with
  | none =>
    obtain ⟨l1, hadd, hwf1, hmem⟩ := hstep (lru.NewCache c.cacheBytes false) (lru.WF.new _ _) rfl
    refine ⟨l1, ?_, hwf1, hmem⟩
    unfold cache.add
    rw [hl]
    simp only [hadd]
  | some l =>
    obtain ⟨hwf, hmax⟩ := hok l hl
    obtain ⟨l1, hadd, hwf1, hmem⟩ := hstep l hwf hmax
    refine ⟨l1, ?_, hwf1, hmem⟩
    unfold cache.add
    rw [hl]
    simp only [hadd]

/-! ### The claims on the group -/

/-- C12, the claim as stated fails. In a group with `cacheBytes = 4` whose getter answers with
five bytes, the entry of `"key"` has a footprint of 8 bytes: `populateCache` adds it and the
engine evicts it at once. The second `Get("key")` misses again and calls the getter a second
time. -/
theorem group_reloads_oversized :
    NewGroup "scores" 4 (some countingGetter) 0 = some smallGroup ∧
    (smallGroup.gets ["key", "key"]).map (fun x => (x.1, x.2.trace, x.2.world))
      = some ([(⟨[118, 97, 108, 117, 101]⟩, none), (⟨[118, 97, 108, 117, 101]⟩, none)],
          [Event.get "key", Event.load "key", Event.add "key",
           Event.get "key", Event.load "key", Event.add "key"], 2) :=
  ⟨rfl, by decide⟩

/-- C12, amended. For every group built by `NewGroup` and used through `Get`, every non-empty
key `x` that misses the cache, and a getter that succeeds on `x` with bytes such that the entry
fits (`cacheBytes = 0` or `len(x) + len(bytes) <= cacheBytes`): the first `Get(x)` looks in
the cache, calls the getter once, stores the value and returns the bytes of the getter; a
second `Get(x)` returns the same bytes from the cache, without calling the getter. -/
theorem group_miss_then_hit {σ E : Type} (g : Group σ E) (x : String) (bytes : List UInt8)
    (w : σ) (hg : g.Reachable) (hx : x ≠ "") (hmiss : (g.mainCache.get x).1 = none)
    (hload : g.getter x g.world = (Except.ok bytes, w))
    (hfits : g.mainCache.cacheBytes = 0 ∨
      lru.len x + (bytes.length : Int) ≤ g.mainCache.cacheBytes) :
    ∃ g1 g2, g.Get x = some ((⟨bytes⟩, none), g1) ∧
      g1.trace = g.trace ++ [Event.get x, Event.load x, Event.add x] ∧ g1.world = w ∧
      g1.Get x = some ((⟨bytes⟩, none), g2) ∧
      g2.trace = g1.trace ++ [Event.get x] ∧ g2.world = w := by
  obtain ⟨l1, hadd, hwf1, hmem⟩ := cache_add_fits g.mainCache x ⟨bytes⟩ hg.ok hfits
  have hfirst : g.Get x = some ((⟨bytes⟩, none),
      { g with mainCache := { g.mainCache with lru := some l1 }, world := w,
               trace := g.trace ++ [Event.get x] ++ [Event.load x] ++ [Event.add x] }) := by
    rw [group_get_miss g x hx hmiss,
      getLocally_ok { g with trace := g.trace ++ [Event.get x] } x bytes w hload]
    simp only [hadd]
  have hlive := lru.Get_live hwf1 hmem
  have hget2 : ({ g.mainCache with lru := some l1 } : cache).get x
      = (some ⟨bytes⟩, { g.mainCache with lru := some (l1.Get x).2 }) := by
    rw [cache_get_some _ l1 x rfl, hlive.1]
  refine ⟨{ g with mainCache := { g.mainCache with lru := some l1 }, world := w,
                   trace := g.trace ++ [Event.get x] ++ [Event.load x] ++ [Event.add x] },
    { g with mainCache := { g.mainCache with lru := some (l1.Get x).2 }, world := w,
             trace := g.trace ++ [Event.get x] ++ [Event.load x] ++ [Event.add x]
               ++ [Event.get x] },
    hfirst, by simp, rfl, ?_, rfl, rfl⟩
  exact group_get_hit _ x ⟨bytes⟩ _ hx hget2

theorem group_miss_then_hit_witness :
    (scoresGroup.Reachable ∧ ("Tom" : String) ≠ "" ∧ (scoresGroup.mainCache.get "Tom").1 = none ∧
      scoresGroup.getter "Tom" scoresGroup.world = (Except.ok [118, 97, 108, 117, 101], 1) ∧
      (scoresGroup.mainCache.cacheBytes = 0 ∨
        lru.len "Tom" + (([118, 97, 108, 117, 101] : List UInt8).length : Int)
          ≤ scoresGroup.mainCache.cacheBytes)) ∧
    ∃ g1 g2, scoresGroup.Get "Tom" = some ((⟨[118, 97, 108, 117, 101]⟩, none), g1) ∧
      g1.trace = scoresGroup.trace ++ [Event.get "Tom", Event.load "Tom", Event.add "Tom"] ∧
      g1.world = 1 ∧
      g1.Get "Tom" = some ((⟨[118, 97, 108, 117, 101]⟩, none), g2) ∧
      g2.trace = g1.trace ++ [Event.get "Tom"] ∧ g2.world = 1 :=
  ⟨⟨Group.Reachable.new "scores" 2048 countingGetter 0, by decide, rfl, rfl,
      Or.inr (by decide)⟩,
    group_miss_then_hit scoresGroup "Tom" [118, 97, 108, 117, 101] 1
      (Group.Reachable.new "scores" 2048 countingGetter 0) (by decide) rfl rfl
      (Or.inr (by decide))⟩

/-- C13. For every group state and every non-empty key that misses the cache, if the getter
returns an error `e`, then `Get` returns `e` with an empty `ByteView`, and the cache is the
cache before the call: the same engine, with the same entries in the same order and the same
byte counter, or still no engine. The getter was called once and `mainCache.add` was not. -/
theorem loader_failure_atomic {σ E : Type} (g : Group σ E) (key : String) (e : E) (w : σ)
    (hk : key ≠ "") (hmiss : (g.mainCache.get key).1 = none)
    (hload : g.getter key g.world = (Except.error e, w)) :
    ∃ g1, g.Get key = some ((⟨[]⟩, some (GetError.getter e)), g1) ∧
      g1.mainCache = g.mainCache ∧
      (g.mainCache.lru = none → g1.mainCache.lru = none) ∧
      (∀ l, g.mainCache.lru = some l → ∃ l1, g1.mainCache.lru = some l1 ∧
        l1.entries = l.entries ∧ l1.nbytes = l.nbytes ∧ l1.ll = l.ll) ∧
      g1.trace = g.trace ++ [Event.get key, Event.load key] ∧ g1.world = w := by
  refine ⟨{ g with world := w, trace := g.trace ++ [Event.get key] ++ [Event.load key] },
    ?_, rfl, fun h => h, fun l hl => ⟨l, hl, rfl, rfl, rfl⟩, by simp, rfl⟩
  rw [group_get_miss g key hk hmiss,
    getLocally_error { g with trace := g.trace ++ [Event.get key] } key e w hload]

theorem loader_failure_atomic_witness :
    (("Tom" : String) ≠ "" ∧ (brokenGroup.mainCache.get "Tom").1 = none ∧
      brokenGroup.getter "Tom" brokenGroup.world = (Except.error "no such key: Tom", 1)) ∧
    ∃ g1, brokenGroup.Get "Tom" = some ((⟨[]⟩, some (GetError.getter "no such key: Tom")), g1) ∧
      g1.mainCache = brokenGroup.mainCache ∧
      (brokenGroup.mainCache.lru = none → g1.mainCache.lru = none) ∧
      (∀ l, brokenGroup.mainCache.lru = some l → ∃ l1, g1.mainCache.lru = some l1 ∧
        l1.entries = l.entries ∧ l1.nbytes = l.nbytes ∧ l1.ll = l.ll) ∧
      g1.trace = brokenGroup.trace ++ [Event.get "Tom", Event.load "Tom"] ∧ g1.world = 1 :=
  ⟨⟨by decide, rfl, rfl⟩,
    loader_failure_atomic brokenGroup "Tom" "no such key: Tom" 1 (by decide) rfl rfl⟩

/-- C14. For every group state, `Get("")` returns the invalid-key error with an empty
`ByteView` and leaves the group as it is: the getter is not called and the cache is neither
read nor changed (the trace, the getter state and the cache are the same). And whenever `Get`
returns the invalid-key error, the key is empty. -/
theorem empty_key_rejected {σ E : Type} (g : Group σ E) :
    g.Get "" = some ((⟨[]⟩, some GetError.keyRequired), g) ∧
    (∀ r g1, g.Get "" = some (r, g1) →
      g1.trace = g.trace ∧ g1.world = g.world ∧ g1.mainCache = g.mainCache) ∧
    ∀ (key : String) (v : ByteView) (g1 : Group σ E),
      g.Get key = some ((v, some GetError.keyRequired), g1) → key = "" := by
  refine ⟨group_get_empty g, ?_, ?_⟩
  · intro r g1 h
    rw [group_get_empty] at h
    have := (Prod.mk.inj (Option.some.inj h)).2
    rw [← this]
    exact ⟨rfl, rfl, rfl⟩
  · intro key v g1 h
    by_contra hk
    cases hq : (g.mainCache.get key).1 with
    | some v1 =>
      have hpair : g.mainCache.get key = (some v1, (g.mainCache.get key).2) := by
        rw [← hq]
      rw [group_get_hit g key v1 _ hk hpair] at h
      have h1 := (Prod.mk.inj (Prod.mk.inj (Option.some.inj h)).1).2
      exact Option.noConfusion h1
    | none =>
      rw [group_get_miss g key hk hq] at h
      rcases hload : g.getter key g.world with ⟨_ | bytes, w⟩
      · rename_i e
        rw [getLocally_error { g with trace := g.trace ++ [Event.get key] } key e w hload] at h
        have h1 := (Prod.mk.inj (Prod.mk.inj (Option.some.inj h)).1).2
        exact GetError.noConfusion (Option.some.inj h1)
      · rw [getLocally_ok { g with trace := g.trace ++ [Event.get key] } key bytes w hload] at h
        cases hadd : g.mainCache.add key ⟨bytes⟩ with
        | none =>
          simp only [hadd] at h
          exact Option.noConfusion h
        | some mc =>
          simp only [hadd] at h
          have h1 := (Prod.mk.inj (Prod.mk.inj (Option.some.inj h)).1).2
          exact Option.noConfusion h1

end geecache
